import Mathlib

/-!
Verification of the parallel sorting engines of the `taguchi` example program
(`src/example/main.go`): two parallel quicksort implementations (a job-queue
Lomuto variant and a 3-way Dutch-national-flag variant) and an LSD radix sort
with per-worker histogramming.

Modelling conventions:
- Go `int` values are modelled as `Int` (the documented no-overflow
  precondition of the design makes machine width irrelevant to the claims).
- Go's truncated division `/` and remainder `%` are `Int.tdiv` / `Int.tmod`.
- The mutable array of the quicksort engines is modelled as a function
  `Int → Int` together with explicit index bounds; in-place swaps become
  pointwise updates.  The radix engine, which reads and writes whole arrays,
  is modelled over `List Int`.
- Go loops are modelled by structurally recursive functions.  Loops whose
  natural measure is not a structural argument take an explicit fuel
  argument; every caller passes fuel that provably dominates the iteration
  count (see the `*_spec` theorems), so the fuel-exhausted branch is dead.
- Panicking operations (out-of-range slice indexing, division by zero,
  negative `make` sizes) are modelled by `Option`, returning `none` exactly
  where the Go code would panic.
- The concurrency substrate (channels, WaitGroup) is not modelled
  operationally: every job submitted to the queue is eventually executed by
  `quickSortJob`/`quickSortPartition` on a disjoint index range, and the
  queue-full fallback of `submitJob` executes jobs synchronously inline, so
  the array result of any schedule equals the result of the all-inline
  (synchronous-fallback) schedule, which is the run modelled here.
-/

namespace GoSort

/-- Digit extraction `(x / exp) % base` with Go's truncated `/` and `%`. -/
def goDigit (exp base x : Int) : Int := (x.tdiv exp).tmod base

/-! ### Array-as-function model for the quicksort engines -/

/-- In-place swap `arr[a], arr[b] = arr[b], arr[a]` on the function model. -/
def swapFn (f : Int → Int) (a b : Int) : Int → Int :=
  fun k => if k = a then f b else if k = b then f a else f k

/-- The slice `arr[lo..hi]` (inclusive) read out as a list. -/
def readRange (f : Int → Int) (lo hi : Int) : List Int :=
  (List.range (hi + 1 - lo).toNat).map fun k : Nat => f (lo + (k : Int))

/-- Overwrite the cells `lo, lo+1, ...` with the entries of `l`. -/
def writeRange (f : Int → Int) (lo : Int) (l : List Int) : Int → Int :=
  fun k => if 0 ≤ k - lo ∧ k - lo < (l.length : Int) then l.getD (k - lo).toNat 0 else f k

/-- Model of the sequential small-range sorts `sort.Ints(arr[lo:hi+1])` and
`slices.Sort(arr[lo:hi+1])`: the slice contents are replaced by their
ascending rearrangement (the Go standard library's contract). -/
def seqSortRange (f : Int → Int) (lo hi : Int) : Int → Int :=
  writeRange f lo ((readRange f lo hi).mergeSort fun a b => decide (a ≤ b))

/-- The median of three values. -/
def median3 (a b c : Int) : Int := max (min a b) (min (max a b) c)

/-- The three conditional swaps ordering `arr[lo], arr[mid], arr[hi]`, shared
verbatim by `partitionMedian` and `partition3Way` in the source. -/
def medianPrep (f : Int → Int) (lo mid hi : Int) : Int → Int :=
  let f1 := if f mid < f lo then swapFn f mid lo else f
  let f2 := if f1 hi < f1 lo then swapFn f1 hi lo else f1
  if f2 hi < f2 mid then swapFn f2 hi mid else f2

/-- The Dutch-national-flag loop of `partition3Way` (`for i <= gt { ... }`).
`fuel` dominates `gt + 1 - i`, the number of remaining iterations. -/
def p3wLoop (pivot : Int) : Nat → (Int → Int) → Int → Int → Int → (Int → Int) × Int × Int
  | 0, f, lt, _i, gt => (f, lt, gt)
  | fuel + 1, f, lt, i, gt =>
    if i ≤ gt then
      if f i < pivot then p3wLoop pivot fuel (swapFn f lt i) (lt + 1) (i + 1) gt
      else if pivot < f i then p3wLoop pivot fuel (swapFn f i gt) lt i (gt - 1)
      else p3wLoop pivot fuel f lt (i + 1) gt
    else (f, lt, gt)

/-- `partition3Way` of the second quicksort implementation: median-of-three
pivot selection followed by the Dutch-national-flag pass; returns the new
array together with `(lt, gt)`. -/
def partition3Way (f : Int → Int) (lo hi : Int) : (Int → Int) × Int × Int :=
  let mid := lo + (hi - lo).tdiv 2
  let f3 := medianPrep f lo mid hi
  p3wLoop (f3 mid) (hi + 1 - lo).toNat f3 lo lo hi

/-- The Lomuto scan of `partitionMedian` (`for j := lo; j < hi; j++`).
`fuel` dominates `hi - j`, the number of remaining iterations. -/
def lomutoLoop (pivot hi : Int) : Nat → (Int → Int) → Int → Int → (Int → Int) × Int
  | 0, f, i, _j => (f, i)
  | fuel + 1, f, i, j =>
    if j < hi then
      if f j ≤ pivot then lomutoLoop pivot hi fuel (swapFn f i j) (i + 1) (j + 1)
      else lomutoLoop pivot hi fuel f i (j + 1)
    else (f, i)

/-- `partitionMedian` of the first quicksort implementation: median-of-three
selection, pivot moved to `hi`, Lomuto scan, pivot swapped into place. -/
def partitionMedian (f : Int → Int) (lo hi : Int) : (Int → Int) × Int :=
  let mid := lo + (hi - lo).tdiv 2
  let f3 := medianPrep f lo mid hi
  let f4 := swapFn f3 mid hi
  let r := lomutoLoop (f4 hi) hi (hi - lo).toNat f4 lo lo
  (swapFn r.1 r.2 hi, r.2)

/-- `const sortThreshold = 2048` of the second implementation. -/
def sortThreshold : Int := 2048

/-- The small-range guard `hi-lo < 2048` of `quickSortJob` (first
implementation). -/
def smallJob (lo hi : Int) : Bool := hi - lo < 2048

/-- The small-range guard `hi-lo < sortThreshold` of `quickSortPartition`
(second implementation). -/
def smallPartition (lo hi : Int) : Bool := hi - lo < sortThreshold

/-- `quickSortJob` of the first implementation, under the all-inline
(synchronous-fallback) schedule: each of the two `submitJob` calls is the
guard `lo >= hi` followed by an inline `quickSortJob`.  `fuel` dominates the
recursion depth (each level strictly shrinks `hi - lo`). -/
def quickSortJobF : Nat → (Int → Int) → Int → Int → (Int → Int)
  | 0, f, _, _ => f
  | fuel + 1, f, lo, hi =>
    if hi ≤ lo then f
    else if smallJob lo hi then seqSortRange f lo hi
    else
      let r := partitionMedian f lo hi
      let f1 := if r.2 - 1 ≤ lo then r.1 else quickSortJobF fuel r.1 lo (r.2 - 1)
      if hi ≤ r.2 + 1 then f1 else quickSortJobF fuel f1 (r.2 + 1) hi

/-- `submitJob` of the first implementation on the queue-full fallback path:
guard `lo >= hi`, then run the job synchronously inline. -/
def submitJobV1 (fuel : Nat) (f : Int → Int) (lo hi : Int) : Int → Int :=
  if hi ≤ lo then f else quickSortJobF fuel f lo hi

/-- `quickSortPartition` of the second implementation, all-inline schedule. -/
def quickSortPartitionF : Nat → (Int → Int) → Int → Int → (Int → Int)
  | 0, f, _, _ => f
  | fuel + 1, f, lo, hi =>
    if hi ≤ lo then f
    else if smallPartition lo hi then seqSortRange f lo hi
    else
      let r := partition3Way f lo hi
      let f1 := if r.2.1 - 1 ≤ lo then r.1 else quickSortPartitionF fuel r.1 lo (r.2.1 - 1)
      if hi ≤ r.2.2 + 1 then f1 else quickSortPartitionF fuel f1 (r.2.2 + 1) hi

/-- `submitJob` of the second implementation on the queue-full fallback path. -/
def submitJobV2 (fuel : Nat) (f : Int → Int) (lo hi : Int) : Int → Int :=
  if hi ≤ lo then f else quickSortPartitionF fuel f lo hi

/-- View a list as the array function backing it (cells outside hold 0,
never read by the algorithms under their index invariants). -/
def ofList (l : List Int) : Int → Int :=
  fun k => if 0 ≤ k ∧ k < (l.length : Int) then l.getD k.toNat 0 else 0

/-- Read the first `n` cells of an array function back into a list. -/
def toListFn (f : Int → Int) (n : Nat) : List Int :=
  (List.range n).map fun k : Nat => f (k : Int)

/-- `ParallelQuickSort` (first implementation, `main.go` part 2): early return
for length ≤ 1, then the whole-array job `{0, len(arr)-1}` is executed by a
worker.  The worker pool and channel only schedule disjoint-range jobs, so
the resulting array is that of the all-inline run modelled by
`quickSortJobF`; `workers` does not affect the array contents. -/
def ParallelQuickSortV1 (arr : List Int) (workers : Int) : List Int :=
  if arr.length ≤ 1 then arr
  else toListFn (quickSortJobF arr.length (ofList arr) 0 ((arr.length : Int) - 1)) arr.length

/-- `ParallelQuickSort` (second implementation, `main.go` part 3), modelled
like `ParallelQuickSortV1`. -/
def ParallelQuickSortV2 (arr : List Int) (workers : Int) : List Int :=
  if arr.length ≤ 1 then arr
  else toListFn (quickSortPartitionF arr.length (ofList arr) 0 ((arr.length : Int) - 1)) arr.length

/-! ### The radix engine -/

/-- `counts[digit]++` with the Go bounds check: indexing a count slice of
length `base` outside `[0, base)` panics (`none`). -/
def bump (counts : List Nat) (d : Int) : Option (List Nat) :=
  if 0 ≤ d ∧ d < (counts.length : Int) then
    some (counts.set d.toNat (counts.getD d.toNat 0 + 1))
  else none

/-- One worker's counting loop: `for i := start; i < end; i++ { counts[digit]++ }`
over its chunk, threaded through `bump`. -/
def countDigits (exp base : Int) : List Int → List Nat → Option (List Nat)
  | [], counts => some counts
  | x :: xs, counts =>
    (bump counts (goDigit exp base x)).bind fun c => countDigits exp base xs c

/-- The `workers` contiguous chunks `[w*chunkSize, min((w+1)*chunkSize, n))`
of the array, realised by repeatedly splitting off `chunkSize` elements. -/
def chunksList (cs : Nat) : Nat → List Int → List (List Int)
  | 0, _ => []
  | w + 1, arr => arr.take cs :: chunksList cs w (arr.drop cs)

/-- `localCounts[workerID] = counts` for every worker, each starting from
`make([]int, base)` (all zeros). -/
def localCountsAll (exp base : Int) (b : Nat) : List (List Int) → Option (List (List Nat))
  | [] => some []
  | c :: rest =>
    (countDigits exp base c (List.replicate b 0)).bind fun counts =>
      (localCountsAll exp base b rest).bind fun others => some (counts :: others)

/-- Step 2 of `parallelCountingSort`: `globalCount[digit] += localCounts[w][digit]`
over workers in order (element-wise sums into an all-zero global count). -/
def mergeCounts (b : Nat) (locals : List (List Nat)) : List Nat :=
  locals.foldl (fun acc c => List.zipWith (fun x y => x + y) acc c) (List.replicate b 0)

/-- Step 3 of `parallelCountingSort`: the in-place loop
`for i := 1; i < base; i++ { globalCount[i] += globalCount[i-1] }`, with the
running total carried in `acc`. -/
def cumulate : List Nat → Nat → List Nat
  | [], _ => []
  | x :: xs, acc => (acc + x) :: cumulate xs (acc + x)

/-- Steps 1–2 of `parallelCountingSort`: chunked per-worker counting followed
by the merge.  `workers <= 0` panics in Go (`chunkSize` division by zero for
`workers == 0`, negative-length `make` for `workers < 0`). -/
def mergedHistogram (arr : List Int) (exp base workers : Int) : Option (List Nat) :=
  if workers ≤ 0 then none
  else
    let w := workers.toNat
    let cs := (arr.length + w - 1) / w
    (localCountsAll exp base base.toNat (chunksList cs w arr)).bind fun locals =>
      some (mergeCounts base.toNat locals)

/-- The global cumulative array after step 3 of `parallelCountingSort`. -/
def globalCumulative (arr : List Int) (exp base workers : Int) : Option (List Nat) :=
  (mergedHistogram arr exp base workers).bind fun g => some (cumulate g 0)

/-- Step 4 of `parallelCountingSort`: the sequential placement loop
`for i := n-1; i >= 0; i-- { digit := ...; globalCount[digit]--;
output[globalCount[digit]] = arr[i] }`, processing the elements of the
source array from the last index to the first (the argument list is the
reversed array).  Out-of-range count or output indices panic (`none`). -/
def placeLoop (exp base : Int) : List Int → List Nat → List Int → Option (List Int × List Nat)
  | [], cum, out => some (out, cum)
  | x :: xs, cum, out =>
    let d := goDigit exp base x
    if 0 ≤ d ∧ d < (cum.length : Int) then
      let c := cum.getD d.toNat 0
      if 1 ≤ c ∧ c - 1 < out.length then
        placeLoop exp base xs (cum.set d.toNat (c - 1)) (out.set (c - 1) x)
      else none
    else none

/-- `parallelCountingSort(arr, exp, base, workers)`: one radix pass.  The
final `copy(arr, output)` makes the output buffer the new array value. -/
def parallelCountingSort (arr : List Int) (exp base workers : Int) : Option (List Int) :=
  (globalCumulative arr exp base workers).bind fun cum =>
    (placeLoop exp base arr.reverse cum (List.replicate arr.length 0)).bind fun r =>
      some r.1

/-- `minVal := arr[0]; for _, v := range arr { if v < minVal { minVal = v } }`. -/
def minValOf (arr : List Int) : Int :=
  arr.foldl (fun m v => if v < m then v else m) (arr.headD 0)

/-- `maxVal := arr[0]; for _, v := range arr { if v > maxVal { maxVal = v } }`. -/
def maxValOf (arr : List Int) : Int :=
  arr.foldl (fun m v => if m < v then v else m) (arr.headD 0)

/-- `offset := 0; if minVal < 0 { offset = -minVal }`. -/
def offsetOf (arr : List Int) : Int :=
  if minValOf arr < 0 then -(minValOf arr) else 0

/-- The array after the offset step (`arr[i] += offset` when `minVal < 0`). -/
def shiftedArr (arr : List Int) : List Int :=
  if minValOf arr < 0 then arr.map (fun v => v + offsetOf arr) else arr

/-- The digit-pass loop `for exp := 1; maxVal/exp > 0; exp *= base` with
`base = 256`.  `fuel` dominates the number of passes (the caller passes
`maxVal.toNat + 1`, and the pass count is at most that, see the pass-count
theorems). -/
def radixLoop (workers maxVal : Int) : Nat → List Int → Int → Option (List Int)
  | 0, arr, exp => if 0 < maxVal.tdiv exp then none else some arr
  | fuel + 1, arr, exp =>
    if 0 < maxVal.tdiv exp then
      (parallelCountingSort arr exp 256 workers).bind fun arr2 =>
        radixLoop workers maxVal fuel arr2 (exp * 256)
    else some arr

/-- `ParallelRadixSort(arr, workers)`: early return for length ≤ 1, negative
handling by offsetting, the digit-pass loop, and offset restoration. -/
def ParallelRadixSort (arr : List Int) (workers : Int) : Option (List Int) :=
  if arr.length ≤ 1 then some arr
  else
    let arr1 := shiftedArr arr
    let maxVal := maxValOf arr1
    (radixLoop workers maxVal (maxVal.toNat + 1) arr1 1).bind fun l =>
      some (if 0 < offsetOf arr then l.map (fun v => v - offsetOf arr) else l)

/-- The number of iterations of the digit-pass loop, mirrored from
`radixLoop`. -/
def radixPassCount (maxVal : Int) : Nat → Int → Nat
  | 0, _ => 0
  | fuel + 1, exp =>
    if 0 < maxVal.tdiv exp then radixPassCount maxVal fuel (exp * 256) + 1 else 0

/-- `k` successive counting-sort passes starting at digit position `exp`,
multiplying the position by 256 between passes. -/
def applyPasses (workers : Int) : Nat → List Int → Int → Option (List Int)
  | 0, arr, _ => some arr
  | k + 1, arr, exp =>
    (parallelCountingSort arr exp 256 workers).bind fun a2 =>
      applyPasses workers k a2 (exp * 256)

/-! ### Specification-side helper definitions -/

/-- The number of elements of `l` whose digit at position `exp` equals `d`. -/
def cntd (exp base : Int) (d : Nat) (l : List Int) : Nat :=
  List.countP (fun x => decide (goDigit exp base x = (d : Int))) l

/-- The number of elements of `l` whose digit at position `exp` is `< e`. -/
def lowCount (exp base : Int) (e : Nat) (l : List Int) : Nat :=
  List.countP (fun x => decide (goDigit exp base x < (e : Int))) l

/-- The elements of `l` with digit `d`, in order. -/
def bucketOf (exp base : Int) (d : Nat) (l : List Int) : List Int :=
  l.filter fun x => decide (goDigit exp base x = (d : Int))

/-- The output buffer state of the placement loop when the elements of `pre`
are still unprocessed and those of `suf` are placed: segment `d` consists of
`cntd d pre` untouched zero cells followed by the digit-`d` elements of
`suf` in order.  With `pre = []` this is the bucket concatenation, i.e. the
stable sort of the array by digit. -/
def segs (exp base : Int) (pre suf : List Int) : Nat → List Int
  | 0 => []
  | b + 1 =>
    segs exp base pre suf b ++ (List.replicate (cntd exp base b pre) 0 ++ bucketOf exp base b suf)

/-- The cumulative-count state of the placement loop over full array `arr`
when the elements of `pre` are still unprocessed: entry `d` holds
(number of `arr`-elements with digit `< d`) + (number of `pre`-elements with
digit `d`). -/
def cumExpected (exp base : Int) (arr pre : List Int) (b : Nat) : List Nat :=
  (List.range b).map fun d => lowCount exp base d arr + cntd exp base d pre

/-- `arr[lo..hi]` is in non-decreasing order. -/
def SortedRange (f : Int → Int) (lo hi : Int) : Prop :=
  ∀ i j : Int, lo ≤ i → i ≤ j → j ≤ hi → f i ≤ f j

end GoSort

/-! ### Infrastructure: ranges, swaps, permutations -/

namespace GoSort

theorem readRange_length (f : Int → Int) (lo hi : Int) :
    (readRange f lo hi).length = (hi + 1 - lo).toNat := by
  simp [readRange]

theorem readRange_getElem (f : Int → Int) (lo hi : Int) {k : Nat}
    (h : k < (readRange f lo hi).length) :
    (readRange f lo hi)[k] = f (lo + (k : Int)) := by
  simp [readRange]

theorem mem_readRange {f : Int → Int} {lo hi x : Int} :
    x ∈ readRange f lo hi ↔ ∃ k : Int, lo ≤ k ∧ k ≤ hi ∧ f k = x := by
  constructor
  · intro hx
    rcases List.mem_map.1 hx with ⟨k, hk, rfl⟩
    have hk2 := List.mem_range.1 hk
    exact ⟨lo + k, by omega, by omega, rfl⟩
  · rintro ⟨k, h1, h2, rfl⟩
    refine List.mem_map.2 ⟨(k - lo).toNat, List.mem_range.2 (by omega), ?_⟩
    congr 1
    omega

theorem self_mem_readRange {f : Int → Int} {lo hi k : Int} (h1 : lo ≤ k) (h2 : k ≤ hi) :
    f k ∈ readRange f lo hi :=
  mem_readRange.2 ⟨k, h1, h2, rfl⟩

theorem readRange_congr {f g : Int → Int} {lo hi : Int}
    (h : ∀ k, lo ≤ k → k ≤ hi → f k = g k) : readRange f lo hi = readRange g lo hi := by
  unfold readRange
  refine List.map_congr_left ?_
  intro k hk
  have := List.mem_range.1 hk
  exact h _ (by omega) (by omega)

theorem readRange_split (f : Int → Int) {lo m hi : Int} (h1 : lo - 1 ≤ m) (h2 : m ≤ hi) :
    readRange f lo hi = readRange f lo m ++ readRange f (m + 1) hi := by
  apply List.ext_getElem
  · simp only [readRange_length, List.length_append]
    omega
  · intro n hn1 hn2
    rw [readRange_getElem, List.getElem_append]
    split
    · rw [readRange_getElem]
    · rw [readRange_getElem]
      congr 1
      simp only [readRange_length] at *
      omega

theorem swapFn_left (f : Int → Int) (a b : Int) : swapFn f a b a = f b := by
  simp [swapFn]

theorem swapFn_right (f : Int → Int) (a b : Int) : swapFn f a b b = f a := by
  by_cases h : b = a <;> simp [swapFn, h]

theorem swapFn_other {k a b : Int} (f : Int → Int) (h1 : k ≠ a) (h2 : k ≠ b) :
    swapFn f a b k = f k := by
  simp [swapFn, h1, h2]

theorem getD_set_ne {α : Type} (l : List α) {i j : Nat} (d a : α) (h : i ≠ j) :
    (l.set i a).getD j d = l.getD j d := by
  rcases Nat.lt_or_ge j l.length with hj | hj
  · rw [List.getD_eq_getElem _ _ (by simpa using hj), List.getD_eq_getElem _ _ hj,
      List.getElem_set]
    simp [h]
  · rw [List.getD_eq_default _ _ (by simpa using hj), List.getD_eq_default _ _ hj]

theorem getD_set_eq {α : Type} (l : List α) {i : Nat} (d a : α) (h : i < l.length) :
    (l.set i a).getD i d = a := by
  rw [List.getD_eq_getElem _ _ (by simpa using h)]
  simp [List.getElem_set]

theorem count_set_add (l : List Int) (i : Nat) (a v : Int) (h : i < l.length) :
    (l.set i a).count v + (if l.getD i 0 = v then 1 else 0)
      = l.count v + (if a = v then 1 else 0) := by
  induction l generalizing i with
  | nil => simp at h
  | cons x xs ih =>
    cases i with
    | zero =>
      simp only [List.set_cons_zero, List.count_cons, List.getD_cons_zero, beq_iff_eq]
      split_ifs <;> omega
    | succ n =>
      simp only [List.set_cons_succ, List.count_cons, List.getD_cons_succ, beq_iff_eq]
      have := ih n (by simpa using h)
      split_ifs at * <;> omega

theorem set_getD_self (l : List Int) (i : Nat) : l.set i (l.getD i 0) = l := by
  apply List.ext_getElem
  · simp
  · intro n h1 h2
    rw [List.getElem_set]
    split
    · next heq => subst heq; exact (List.getD_eq_getElem _ _ h2).symm ▸ rfl
    · rfl

theorem set_set_perm (l : List Int) (i j : Nat) (hi : i < l.length) (hj : j < l.length) :
    ((l.set i (l.getD j 0)).set j (l.getD i 0)).Perm l := by
  rcases eq_or_ne i j with rfl | hij
  · rw [set_getD_self, set_getD_self]
  · rw [List.perm_iff_count]
    intro v
    have h1 := count_set_add l i (l.getD j 0) v hi
    have h2 := count_set_add (l.set i (l.getD j 0)) j (l.getD i 0) v (by simpa using hj)
    rw [getD_set_ne l 0 _ hij] at h2
    split_ifs at h1 h2 <;> omega

theorem readRange_swap (f : Int → Int) {lo hi a b : Int}
    (ha1 : lo ≤ a) (ha2 : a ≤ hi) (hb1 : lo ≤ b) (hb2 : b ≤ hi) :
    readRange (swapFn f a b) lo hi
      = ((readRange f lo hi).set (a - lo).toNat (f b)).set (b - lo).toNat (f a) := by
  apply List.ext_getElem
  · simp [readRange_length]
  · intro n h1 h2
    rw [readRange_getElem, List.getElem_set]
    split
    · simp only [swapFn]
      split_ifs <;> first | rfl | (congr 1; omega) | omega
    · rw [List.getElem_set]
      split
      · simp only [swapFn]
        split_ifs <;> first | rfl | (congr 1; omega) | omega
      · rw [readRange_getElem]
        simp only [swapFn]
        split_ifs <;> first | rfl | (congr 1; omega) | omega

theorem readRange_swap_perm (f : Int → Int) {lo hi a b : Int}
    (ha1 : lo ≤ a) (ha2 : a ≤ hi) (hb1 : lo ≤ b) (hb2 : b ≤ hi) :
    (readRange (swapFn f a b) lo hi).Perm (readRange f lo hi) := by
  rw [readRange_swap f ha1 ha2 hb1 hb2]
  have e1 : f b = (readRange f lo hi).getD (b - lo).toNat 0 := by
    rw [List.getD_eq_getElem _ _ (by rw [readRange_length]; omega), readRange_getElem]
    congr 1
    omega
  have e2 : f a = (readRange f lo hi).getD (a - lo).toNat 0 := by
    rw [List.getD_eq_getElem _ _ (by rw [readRange_length]; omega), readRange_getElem]
    congr 1
    omega
  rw [e1, e2]
  exact set_set_perm _ _ _ (by rw [readRange_length]; omega) (by rw [readRange_length]; omega)

theorem toListFn_eq_readRange (f : Int → Int) (n : Nat) :
    toListFn f n = readRange f 0 ((n : Int) - 1) := by
  apply List.ext_getElem
  · simp only [toListFn, List.length_map, List.length_range, readRange_length]
    omega
  · intro k h1 h2
    rw [readRange_getElem]
    simp [toListFn]

theorem toListFn_ofList (l : List Int) : toListFn (ofList l) l.length = l := by
  apply List.ext_getElem
  · simp [toListFn]
  · intro k h1 h2
    simp only [toListFn, List.getElem_map, List.getElem_range]
    unfold ofList
    rw [if_pos (by constructor <;> omega)]
    rw [Int.toNat_natCast]
    exact List.getD_eq_getElem _ _ h2

theorem sortedRange_congr {f g : Int → Int} {lo hi : Int}
    (h : ∀ k, lo ≤ k → k ≤ hi → f k = g k) (hs : SortedRange f lo hi) :
    SortedRange g lo hi := by
  intro i j h1 h2 h3
  rw [← h i h1 (by omega), ← h j (by omega) h3]
  exact hs i j h1 h2 h3

theorem sortedRange_of_le {f : Int → Int} {lo hi : Int} (h : hi ≤ lo) :
    SortedRange f lo hi := by
  intro i j h1 h2 h3
  have hij : i = j := by omega
  rw [hij]

theorem pairwise_toListFn {f : Int → Int} {n : Nat} (h : SortedRange f 0 ((n : Int) - 1)) :
    (toListFn f n).Pairwise (· ≤ ·) := by
  rw [List.pairwise_iff_getElem]
  intro i j h1 h2 hij
  simp only [toListFn, List.length_map, List.length_range] at h1 h2
  simp only [toListFn, List.getElem_map, List.getElem_range]
  exact h i j (by omega) (by omega) (by omega)

end GoSort

/-! ### The 3-way partition -/

namespace GoSort

theorem tdiv2_bounds (a : Int) (h : 1 ≤ a) : 0 ≤ a.tdiv 2 ∧ a.tdiv 2 < a := by
  rw [Int.tdiv_eq_ediv (by omega) (by omega)]
  have h1 := Int.emod_nonneg a (by norm_num : (2 : Int) ≠ 0)
  have h2 := Int.emod_def a 2
  have h3 : 0 ≤ a / 2 := Int.ediv_nonneg (by omega) (by omega)
  omega

theorem p3wLoop_spec (pivot lo hi : Int) :
    ∀ (fuel : Nat) (f : Int → Int) (lt i gt : Int) (g : Int → Int) (lt2 gt2 : Int),
      p3wLoop pivot fuel f lt i gt = (g, lt2, gt2) →
      lo ≤ lt → lt ≤ i → i ≤ gt + 1 → gt ≤ hi → (gt + 1 - i).toNat ≤ fuel →
      (∀ k, lo ≤ k → k < lt → f k < pivot) →
      (∀ k, lt ≤ k → k < i → f k = pivot) →
      (∀ k, gt < k → k ≤ hi → pivot < f k) →
      (lo ≤ lt2 ∧ lt2 ≤ gt2 + 1 ∧ gt2 ≤ hi)
      ∧ (∀ k, lo ≤ k → k < lt2 → g k < pivot)
      ∧ (∀ k, lt2 ≤ k → k ≤ gt2 → g k = pivot)
      ∧ (∀ k, gt2 < k → k ≤ hi → pivot < g k)
      ∧ (∀ k, k < lo ∨ hi < k → g k = f k)
      ∧ (readRange g lo hi).Perm (readRange f lo hi) := by
  intro fuel
  induction fuel with
  | zero =>
    intro f lt i gt g lt2 gt2 heq hlt hlti higt hgt hfuel zless zeq zgt
    simp only [p3wLoop, Prod.mk.injEq] at heq
    obtain ⟨rfl, rfl, rfl⟩ := heq
    refine ⟨⟨hlt, by omega, hgt⟩, zless, ?_, zgt, fun k _ => rfl, List.Perm.refl _⟩
    intro k hk1 hk2
    exact zeq k hk1 (by omega)
  | succ fuel ih =>
    intro f lt i gt g lt2 gt2 heq hlt hlti higt hgt hfuel zless zeq zgt
    simp only [p3wLoop] at heq
    by_cases hig : i ≤ gt
    · rw [if_pos hig] at heq
      by_cases hlt_piv : f i < pivot
      · rw [if_pos hlt_piv] at heq
        have zless2 : ∀ k, lo ≤ k → k < lt + 1 → swapFn f lt i k < pivot := by
          intro k hk1 hk2
          by_cases hkl : k = lt
          · subst hkl
            rw [swapFn_left]
            exact hlt_piv
          · rw [swapFn_other f hkl (by omega)]
            exact zless k hk1 (by omega)
        have zeq2 : ∀ k, lt + 1 ≤ k → k < i + 1 → swapFn f lt i k = pivot := by
          intro k hk1 hk2
          by_cases hki : k = i
          · subst hki
            rw [swapFn_right]
            exact zeq lt le_rfl (by omega)
          · rw [swapFn_other f (by omega) hki]
            exact zeq k (by omega) (by omega)
        have zgt2 : ∀ k, gt < k → k ≤ hi → pivot < swapFn f lt i k := by
          intro k hk1 hk2
          rw [swapFn_other f (by omega) (by omega)]
          exact zgt k hk1 hk2
        have H := ih (swapFn f lt i) (lt + 1) (i + 1) gt g lt2 gt2 heq
          (by omega) (by omega) (by omega) hgt (by omega) zless2 zeq2 zgt2
        refine ⟨H.1, H.2.1, H.2.2.1, H.2.2.2.1, ?_, ?_⟩
        · intro k hk
          rw [H.2.2.2.2.1 k hk]
          exact swapFn_other f (by omega) (by omega)
        · exact H.2.2.2.2.2.trans (readRange_swap_perm f (by omega) (by omega) (by omega) (by omega))
      · rw [if_neg hlt_piv] at heq
        by_cases hgt_piv : pivot < f i
        · rw [if_pos hgt_piv] at heq
          have zless2 : ∀ k, lo ≤ k → k < lt → swapFn f i gt k < pivot := by
            intro k hk1 hk2
            rw [swapFn_other f (by omega) (by omega)]
            exact zless k hk1 hk2
          have zeq2 : ∀ k, lt ≤ k → k < i → swapFn f i gt k = pivot := by
            intro k hk1 hk2
            rw [swapFn_other f (by omega) (by omega)]
            exact zeq k hk1 hk2
          have zgt2 : ∀ k, gt - 1 < k → k ≤ hi → pivot < swapFn f i gt k := by
            intro k hk1 hk2
            by_cases hkg : k = gt
            · subst hkg
              rw [swapFn_right]
              exact hgt_piv
            · rw [swapFn_other f (by omega) hkg]
              exact zgt k (by omega) hk2
          have H := ih (swapFn f i gt) lt i (gt - 1) g lt2 gt2 heq
            hlt hlti (by omega) (by omega) (by omega) zless2 zeq2 zgt2
          refine ⟨H.1, H.2.1, H.2.2.1, H.2.2.2.1, ?_, ?_⟩
          · intro k hk
            rw [H.2.2.2.2.1 k hk]
            exact swapFn_other f (by omega) (by omega)
          · exact H.2.2.2.2.2.trans (readRange_swap_perm f (by omega) (by omega) (by omega) (by omega))
        · rw [if_neg hgt_piv] at heq
          have zeq2 : ∀ k, lt ≤ k → k < i + 1 → f k = pivot := by
            intro k hk1 hk2
            by_cases hki : k = i
            · subst hki
              omega
            · exact zeq k hk1 (by omega)
          exact ih f lt (i + 1) gt g lt2 gt2 heq hlt (by omega) (by omega) hgt (by omega)
            zless zeq2 zgt
    · rw [if_neg hig] at heq
      simp only [Prod.mk.injEq] at heq
      obtain ⟨rfl, rfl, rfl⟩ := heq
      refine ⟨⟨hlt, by omega, hgt⟩, zless, ?_, zgt, fun k _ => rfl, List.Perm.refl _⟩
      intro k hk1 hk2
      exact zeq k hk1 (by omega)

end GoSort

namespace GoSort

theorem medianPrep_untouched (f : Int → Int) (lo mid hi : Int) {k : Int}
    (h1 : k ≠ lo) (h2 : k ≠ mid) (h3 : k ≠ hi) : medianPrep f lo mid hi k = f k := by
  simp only [medianPrep]
  split_ifs <;> simp_all [swapFn]

theorem medianPrep_perm (f : Int → Int) {lo mid hi : Int} (h1 : lo ≤ mid) (h2 : mid ≤ hi) :
    (readRange (medianPrep f lo mid hi) lo hi).Perm (readRange f lo hi) := by
  simp only [medianPrep]
  split_ifs
  all_goals
    repeat
      refine List.Perm.trans
        (readRange_swap_perm _ (by omega) (by omega) (by omega) (by omega)) ?_
    exact List.Perm.refl _

theorem medianPrep_mid (f : Int → Int) {lo mid hi : Int} (h1 : lo < mid) (h2 : mid < hi) :
    medianPrep f lo mid hi mid = median3 (f lo) (f mid) (f hi) := by
  have hml : mid ≠ lo := by omega
  have hlm : lo ≠ mid := by omega
  have hmh : mid ≠ hi := by omega
  have hhm : hi ≠ mid := by omega
  have hhl : hi ≠ lo := by omega
  have hlh : lo ≠ hi := by omega
  simp only [medianPrep, median3, min_def, max_def]
  split_ifs <;> simp_all [swapFn] <;> omega

theorem partition3Way_spec (f : Int → Int) {lo hi : Int} (h : lo < hi)
    (g : Int → Int) (lt gt : Int) (heq : partition3Way f lo hi = (g, lt, gt)) :
    ∃ pv : Int,
      (lo + 1 < hi → pv = median3 (f lo) (f (lo + (hi - lo).tdiv 2)) (f hi))
      ∧ (lo ≤ lt ∧ lt ≤ gt ∧ gt ≤ hi)
      ∧ (∀ k, lo ≤ k → k < lt → g k < pv)
      ∧ (∀ k, lt ≤ k → k ≤ gt → g k = pv)
      ∧ (∀ k, gt < k → k ≤ hi → pv < g k)
      ∧ (∀ k, k < lo ∨ hi < k → g k = f k)
      ∧ (readRange g lo hi).Perm (readRange f lo hi) := by
  have htd := tdiv2_bounds (hi - lo) (by omega)
  simp only [partition3Way] at heq
  set mid := lo + (hi - lo).tdiv 2 with hmid
  have hmid1 : lo ≤ mid := by omega
  have hmid2 : mid < hi := by omega
  set f3 := medianPrep f lo mid hi with hf3
  set pv := f3 mid with hpv
  have H := p3wLoop_spec pv lo hi (hi + 1 - lo).toNat f3 lo lo hi g lt gt heq
    le_rfl le_rfl (by omega) le_rfl (by omega)
    (fun k hk1 hk2 => by omega) (fun k hk1 hk2 => by omega) (fun k hk1 hk2 => by omega)
  have hpv_mem : pv ∈ readRange f3 lo hi := self_mem_readRange hmid1 (by omega)
  have hpv_mem2 : pv ∈ readRange g lo hi := (H.2.2.2.2.2).mem_iff.2 hpv_mem
  rcases mem_readRange.1 hpv_mem2 with ⟨k0, hk01, hk02, hk0v⟩
  have hltgt : lt ≤ gt := by
    rcases lt_or_ge k0 lt with hz | hz
    · have h5 := H.2.1 k0 hk01 hz
      omega
    · rcases le_or_lt k0 gt with hz2 | hz2
      · omega
      · have h5 := H.2.2.2.1 k0 hz2 hk02
        omega
  refine ⟨pv, ?_, ⟨H.1.1, hltgt, H.1.2.2⟩, H.2.1, H.2.2.1, H.2.2.2.1, ?_, ?_⟩
  · intro h21
    have hlomid : lo < mid := by
      have : 1 ≤ (hi - lo).tdiv 2 := by
        rw [Int.tdiv_eq_ediv (by omega) (by omega)]
        rw [Int.le_ediv_iff_mul_le (by norm_num)]
        omega
      omega
    rw [hpv, hf3]
    exact medianPrep_mid f hlomid hmid2
  · intro k hk
    rw [H.2.2.2.2.1 k hk, hf3]
    exact medianPrep_untouched f lo mid hi (by omega) (by omega) (by omega)
  · exact H.2.2.2.2.2.trans (medianPrep_perm f hmid1 (by omega))

end GoSort

/-! ### The Lomuto partition -/

namespace GoSort

theorem lomutoLoop_spec (pivot lo hi : Int) :
    ∀ (fuel : Nat) (f : Int → Int) (i j : Int) (g : Int → Int) (p : Int),
      lomutoLoop pivot hi fuel f i j = (g, p) →
      lo ≤ i → i ≤ j → j ≤ hi → (hi - j).toNat ≤ fuel →
      (∀ k, lo ≤ k → k < i → f k ≤ pivot) →
      (∀ k, i ≤ k → k < j → pivot < f k) →
      (lo ≤ p ∧ p ≤ hi)
      ∧ (∀ k, lo ≤ k → k < p → g k ≤ pivot)
      ∧ (∀ k, p ≤ k → k < hi → pivot < g k)
      ∧ g hi = f hi
      ∧ (∀ k, k < lo ∨ hi < k → g k = f k)
      ∧ (readRange g lo hi).Perm (readRange f lo hi) := by
  intro fuel
  induction fuel with
  | zero =>
    intro f i j g p heq h1 h2 h3 hfuel zle zgt
    simp only [lomutoLoop, Prod.mk.injEq] at heq
    obtain ⟨rfl, rfl⟩ := heq
    refine ⟨⟨h1, by omega⟩, zle, ?_, rfl, fun k _ => rfl, List.Perm.refl _⟩
    intro k hk1 hk2
    exact zgt k hk1 (by omega)
  | succ fuel ih =>
    intro f i j g p heq h1 h2 h3 hfuel zle zgt
    simp only [lomutoLoop] at heq
    by_cases hjh : j < hi
    · rw [if_pos hjh] at heq
      by_cases hle : f j ≤ pivot
      · rw [if_pos hle] at heq
        have zle2 : ∀ k, lo ≤ k → k < i + 1 → swapFn f i j k ≤ pivot := by
          intro k hk1 hk2
          by_cases hki : k = i
          · subst hki
            rw [swapFn_left]
            exact hle
          · rw [swapFn_other f hki (by omega)]
            exact zle k hk1 (by omega)
        have zgt2 : ∀ k, i + 1 ≤ k → k < j + 1 → pivot < swapFn f i j k := by
          intro k hk1 hk2
          by_cases hkj : k = j
          · subst hkj
            rw [swapFn_right]
            exact zgt i le_rfl (by omega)
          · rw [swapFn_other f (by omega) hkj]
            exact zgt k (by omega) (by omega)
        have H := ih (swapFn f i j) (i + 1) (j + 1) g p heq
          (by omega) (by omega) (by omega) (by omega) zle2 zgt2
        refine ⟨H.1, H.2.1, H.2.2.1, ?_, ?_, ?_⟩
        · rw [H.2.2.2.1]
          exact swapFn_other f (by omega) (by omega)
        · intro k hk
          rw [H.2.2.2.2.1 k hk]
          exact swapFn_other f (by omega) (by omega)
        · exact H.2.2.2.2.2.trans
            (readRange_swap_perm f (by omega) (by omega) (by omega) (by omega))
      · rw [if_neg hle] at heq
        have zgt2 : ∀ k, i ≤ k → k < j + 1 → pivot < f k := by
          intro k hk1 hk2
          by_cases hkj : k = j
          · subst hkj
            omega
          · exact zgt k hk1 (by omega)
        exact ih f i (j + 1) g p heq h1 (by omega) (by omega) (by omega) zle zgt2
    · rw [if_neg hjh] at heq
      simp only [Prod.mk.injEq] at heq
      obtain ⟨rfl, rfl⟩ := heq
      refine ⟨⟨h1, by omega⟩, zle, ?_, rfl, fun k _ => rfl, List.Perm.refl _⟩
      intro k hk1 hk2
      exact zgt k hk1 (by omega)

theorem partitionMedian_spec (f : Int → Int) {lo hi : Int} (h : lo < hi)
    (g : Int → Int) (p : Int) (heq : partitionMedian f lo hi = (g, p)) :
    ∃ pv : Int,
      (lo + 1 < hi → pv = median3 (f lo) (f (lo + (hi - lo).tdiv 2)) (f hi))
      ∧ (lo ≤ p ∧ p ≤ hi)
      ∧ g p = pv
      ∧ (∀ k, lo ≤ k → k < p → g k ≤ pv)
      ∧ (∀ k, p < k → k ≤ hi → pv < g k)
      ∧ (∀ k, k < lo ∨ hi < k → g k = f k)
      ∧ (readRange g lo hi).Perm (readRange f lo hi) := by
  have htd := tdiv2_bounds (hi - lo) (by omega)
  simp only [partitionMedian] at heq
  set mid := lo + (hi - lo).tdiv 2 with hmid
  have hmid1 : lo ≤ mid := by omega
  have hmid2 : mid < hi := by omega
  set f3 := medianPrep f lo mid hi with hf3
  set f4 := swapFn f3 mid hi with hf4
  set pv := f4 hi with hpv
  rcases hr : lomutoLoop pv hi (hi - lo).toNat f4 lo lo with ⟨f5, p5⟩
  rw [hr] at heq
  simp only [Prod.mk.injEq] at heq
  obtain ⟨hg, hp⟩ := heq
  rw [hp] at hr hg
  have H := lomutoLoop_spec pv lo hi (hi - lo).toNat f4 lo lo f5 p hr
    le_rfl le_rfl (by omega) (by omega)
    (fun k hk1 hk2 => by omega) (fun k hk1 hk2 => by omega)
  have hf5hi : f5 hi = pv := by
    rw [H.2.2.2.1, hpv]
  refine ⟨pv, ?_, H.1, ?_, ?_, ?_, ?_, ?_⟩
  · intro h21
    have hlomid : lo < mid := by
      have : 1 ≤ (hi - lo).tdiv 2 := by
        rw [Int.tdiv_eq_ediv (by omega) (by omega)]
        rw [Int.le_ediv_iff_mul_le (by norm_num)]
        omega
      omega
    rw [hpv, hf4, swapFn_right, hf3]
    exact medianPrep_mid f hlomid hmid2
  · rw [← hg, swapFn_left]
    exact hf5hi
  · intro k hk1 hk2
    rw [← hg, swapFn_other f5 (by omega) (by omega)]
    exact H.2.1 k hk1 hk2
  · intro k hk1 hk2
    by_cases hkh : k = hi
    · subst hkh
      rw [← hg, swapFn_right]
      exact H.2.2.1 p le_rfl (by omega)
    · rw [← hg, swapFn_other f5 (by omega) hkh]
      exact H.2.2.1 k (by omega) (by omega)
  · intro k hk
    rw [← hg, swapFn_other f5 (by omega) (by omega), H.2.2.2.2.1 k hk, hf4,
      swapFn_other f3 (by omega) (by omega), hf3]
    exact medianPrep_untouched f lo mid hi (by omega) (by omega) (by omega)
  · rw [← hg]
    refine (readRange_swap_perm f5 (by omega) (by omega) (by omega) (by omega)).trans ?_
    refine H.2.2.2.2.2.trans ?_
    rw [hf4]
    refine (readRange_swap_perm f3 (by omega) (by omega) (by omega) (by omega)).trans ?_
    rw [hf3]
    exact medianPrep_perm f hmid1 (by omega)

end GoSort

/-! ### The sequential base-case sort -/

namespace GoSort

theorem mergeSortLen (f : Int → Int) (lo hi : Int) :
    ((readRange f lo hi).mergeSort fun a b => decide (a ≤ b)).length = (hi + 1 - lo).toNat := by
  rw [(List.mergeSort_perm (readRange f lo hi) _).length_eq, readRange_length]

theorem seqSortRange_readRange (f : Int → Int) {lo hi : Int} (h : lo ≤ hi) :
    readRange (seqSortRange f lo hi) lo hi
      = (readRange f lo hi).mergeSort fun a b => decide (a ≤ b) := by
  apply List.ext_getElem
  · rw [readRange_length, mergeSortLen]
  · intro n h1 h2
    rw [readRange_getElem]
    simp only [seqSortRange, writeRange]
    have hcond : 0 ≤ lo + (n : Int) - lo
        ∧ lo + (n : Int) - lo
          < ((((readRange f lo hi).mergeSort fun a b => decide (a ≤ b)).length : Nat) : Int) := by
      constructor
      · omega
      · rw [mergeSortLen]
        rw [readRange_length] at h1
        omega
    rw [if_pos hcond]
    have he : lo + (n : Int) - lo = (n : Int) := by omega
    rw [he, Int.toNat_natCast]
    exact List.getD_eq_getElem _ _ h2

theorem seqSortRange_untouched (f : Int → Int) {lo hi : Int} (k : Int)
    (hk : k < lo ∨ hi < k) : seqSortRange f lo hi k = f k := by
  simp only [seqSortRange, writeRange, mergeSortLen f lo hi]
  rw [if_neg (by omega)]

theorem seqSortRange_perm (f : Int → Int) {lo hi : Int} (h : lo ≤ hi) :
    (readRange (seqSortRange f lo hi) lo hi).Perm (readRange f lo hi) := by
  rw [seqSortRange_readRange f h]
  exact List.mergeSort_perm _ _

theorem sortedRange_of_pairwise {g : Int → Int} {lo hi : Int}
    (h : (readRange g lo hi).Pairwise fun a b => a ≤ b) : SortedRange g lo hi := by
  intro i j h1 h2 h3
  rcases h2.eq_or_lt with rfl | hij
  · exact le_refl _
  have hP := (List.pairwise_iff_getElem.1 h) (i - lo).toNat (j - lo).toNat
    (by rw [readRange_length]; omega) (by rw [readRange_length]; omega) (by omega)
  rw [readRange_getElem, readRange_getElem] at hP
  have e1 : lo + ((i - lo).toNat : Int) = i := by omega
  have e2 : lo + ((j - lo).toNat : Int) = j := by omega
  rw [e1, e2] at hP
  exact hP

theorem seqSortRange_sorted (f : Int → Int) {lo hi : Int} (h : lo ≤ hi) :
    SortedRange (seqSortRange f lo hi) lo hi := by
  have htr : ∀ a b c : Int,
      decide (a ≤ b) = true → decide (b ≤ c) = true → decide (a ≤ c) = true := by
    intro a b c h1 h2
    simp only [decide_eq_true_eq] at *
    omega
  have hto : ∀ a b : Int, (decide (a ≤ b) || decide (b ≤ a)) = true := by
    intro a b
    rcases le_total a b with hab | hab <;> simp [hab]
  have hs := List.sorted_mergeSort htr hto (readRange f lo hi)
  have hrr := seqSortRange_readRange f h
  have hs2 : ((readRange f lo hi).mergeSort fun a b => decide (a ≤ b)).Pairwise
      fun a b : Int => a ≤ b :=
    hs.imp (by intro a b hab; simpa using hab)
  rw [← hrr] at hs2
  exact sortedRange_of_pairwise hs2

/-! ### Composing a partition step with sorted sub-ranges -/

theorem readRange_mem_bound (P : Int → Prop) {g0 fL : Int → Int} {lo hi : Int}
    (hp : (readRange fL lo hi).Perm (readRange g0 lo hi))
    (hall : ∀ k, lo ≤ k → k ≤ hi → P (g0 k)) :
    ∀ k, lo ≤ k → k ≤ hi → P (fL k) := by
  intro k hk1 hk2
  have hmem : fL k ∈ readRange fL lo hi := self_mem_readRange hk1 hk2
  have hmem2 : fL k ∈ readRange g0 lo hi := hp.mem_iff.1 hmem
  rcases mem_readRange.1 hmem2 with ⟨k0, hk01, hk02, hk0v⟩
  rw [← hk0v]
  exact hall k0 hk01 hk02

theorem combine_spec {f g0 fL fR : Int → Int} {lo hi lt gt pv : Int}
    (hb1 : lo ≤ lt) (hb2 : lt ≤ gt) (hb3 : gt ≤ hi)
    (z1 : ∀ k, lo ≤ k → k < lt → g0 k < pv)
    (z2 : ∀ k, lt ≤ k → k ≤ gt → g0 k = pv)
    (z3 : ∀ k, gt < k → k ≤ hi → pv < g0 k)
    (hout : ∀ k, k < lo ∨ hi < k → g0 k = f k)
    (hperm : (readRange g0 lo hi).Perm (readRange f lo hi))
    (hLout : ∀ k, k < lo ∨ lt - 1 < k → fL k = g0 k)
    (hLperm : (readRange fL lo (lt - 1)).Perm (readRange g0 lo (lt - 1)))
    (hLsort : SortedRange fL lo (lt - 1))
    (hRout : ∀ k, k < gt + 1 ∨ hi < k → fR k = fL k)
    (hRperm : (readRange fR (gt + 1) hi).Perm (readRange fL (gt + 1) hi))
    (hRsort : SortedRange fR (gt + 1) hi) :
    (∀ k, k < lo ∨ hi < k → fR k = f k)
    ∧ (readRange fR lo hi).Perm (readRange f lo hi)
    ∧ SortedRange fR lo hi := by
  have houtR : ∀ k, k < lo ∨ hi < k → fR k = f k := by
    intro k hk
    rw [hRout k (by omega), hLout k (by omega), hout k hk]
  have hpermL : (readRange fL lo hi).Perm (readRange g0 lo hi) := by
    rw [readRange_split fL (by omega : lo - 1 ≤ lt - 1) (by omega),
      readRange_split g0 (by omega : lo - 1 ≤ lt - 1) (by omega)]
    refine List.Perm.append hLperm ?_
    rw [readRange_congr fun k hk1 hk2 => hLout k (by omega)]
  have hpermR : (readRange fR lo hi).Perm (readRange fL lo hi) := by
    rw [readRange_split fR (by omega : lo - 1 ≤ gt) (by omega),
      readRange_split fL (by omega : lo - 1 ≤ gt) (by omega)]
    refine List.Perm.append ?_ hRperm
    rw [readRange_congr fun k hk1 hk2 => hRout k (by omega)]
  have vL : ∀ k, lo ≤ k → k ≤ lt - 1 → fR k < pv := by
    intro k hk1 hk2
    rw [hRout k (by omega)]
    exact readRange_mem_bound (fun x => x < pv) hLperm
      (fun k0 h01 h02 => z1 k0 h01 (by omega)) k hk1 hk2
  have vM : ∀ k, lt ≤ k → k ≤ gt → fR k = pv := by
    intro k hk1 hk2
    rw [hRout k (by omega), hLout k (by omega)]
    exact z2 k hk1 hk2
  have vR : ∀ k, gt + 1 ≤ k → k ≤ hi → pv < fR k := by
    intro k hk1 hk2
    exact readRange_mem_bound (fun x => pv < x) hRperm
      (fun k0 h01 h02 => by rw [hLout k0 (by omega)]; exact z3 k0 (by omega) h02) k hk1 hk2
  have hsortL : SortedRange fR lo (lt - 1) := by
    refine sortedRange_congr (fun k hk1 hk2 => ?_) hLsort
    exact (hRout k (by omega)).symm
  refine ⟨houtR, hpermR.trans (hpermL.trans hperm), ?_⟩
  intro i j h1 h2 h3
  rcases le_or_lt i (lt - 1) with hiA | hiA
  · rcases le_or_lt j (lt - 1) with hjA | hjA
    · exact hsortL i j h1 h2 hjA
    · rcases le_or_lt j gt with hjB | hjB
      · exact le_of_lt (lt_of_lt_of_eq (vL i h1 hiA) (vM j (by omega) hjB).symm)
      · exact le_of_lt (lt_trans (vL i h1 hiA) (vR j (by omega) h3))
  · rcases le_or_lt i gt with hiB | hiB
    · rcases le_or_lt j gt with hjB | hjB
      · rw [vM i (by omega) hiB, vM j (by omega) hjB]
      · rw [vM i (by omega) hiB]
        exact le_of_lt (vR j (by omega) h3)
    · exact hRsort i j (by omega) h2 h3

theorem combine2_spec {f g0 fL fR : Int → Int} {lo hi p pv : Int}
    (hb1 : lo ≤ p) (hb3 : p ≤ hi)
    (z1 : ∀ k, lo ≤ k → k < p → g0 k ≤ pv)
    (z2 : g0 p = pv)
    (z3 : ∀ k, p < k → k ≤ hi → pv < g0 k)
    (hout : ∀ k, k < lo ∨ hi < k → g0 k = f k)
    (hperm : (readRange g0 lo hi).Perm (readRange f lo hi))
    (hLout : ∀ k, k < lo ∨ p - 1 < k → fL k = g0 k)
    (hLperm : (readRange fL lo (p - 1)).Perm (readRange g0 lo (p - 1)))
    (hLsort : SortedRange fL lo (p - 1))
    (hRout : ∀ k, k < p + 1 ∨ hi < k → fR k = fL k)
    (hRperm : (readRange fR (p + 1) hi).Perm (readRange fL (p + 1) hi))
    (hRsort : SortedRange fR (p + 1) hi) :
    (∀ k, k < lo ∨ hi < k → fR k = f k)
    ∧ (readRange fR lo hi).Perm (readRange f lo hi)
    ∧ SortedRange fR lo hi := by
  have houtR : ∀ k, k < lo ∨ hi < k → fR k = f k := by
    intro k hk
    rw [hRout k (by omega), hLout k (by omega), hout k hk]
  have hpermL : (readRange fL lo hi).Perm (readRange g0 lo hi) := by
    rw [readRange_split fL (by omega : lo - 1 ≤ p - 1) (by omega),
      readRange_split g0 (by omega : lo - 1 ≤ p - 1) (by omega)]
    refine List.Perm.append hLperm ?_
    rw [readRange_congr fun k hk1 hk2 => hLout k (by omega)]
  have hpermR : (readRange fR lo hi).Perm (readRange fL lo hi) := by
    rw [readRange_split fR (by omega : lo - 1 ≤ p) (by omega),
      readRange_split fL (by omega : lo - 1 ≤ p) (by omega)]
    refine List.Perm.append ?_ hRperm
    rw [readRange_congr fun k hk1 hk2 => hRout k (by omega)]
  have vL : ∀ k, lo ≤ k → k ≤ p - 1 → fR k ≤ pv := by
    intro k hk1 hk2
    rw [hRout k (by omega)]
    exact readRange_mem_bound (fun x => x ≤ pv) hLperm
      (fun k0 h01 h02 => z1 k0 h01 (by omega)) k hk1 hk2
  have vM : fR p = pv := by
    rw [hRout p (by omega), hLout p (by omega)]
    exact z2
  have vR : ∀ k, p + 1 ≤ k → k ≤ hi → pv < fR k := by
    intro k hk1 hk2
    exact readRange_mem_bound (fun x => pv < x) hRperm
      (fun k0 h01 h02 => by rw [hLout k0 (by omega)]; exact z3 k0 (by omega) h02) k hk1 hk2
  have hsortL : SortedRange fR lo (p - 1) := by
    refine sortedRange_congr (fun k hk1 hk2 => ?_) hLsort
    exact (hRout k (by omega)).symm
  refine ⟨houtR, hpermR.trans (hpermL.trans hperm), ?_⟩
  intro i j h1 h2 h3
  rcases le_or_lt i (p - 1) with hiA | hiA
  · rcases le_or_lt j (p - 1) with hjA | hjA
    · exact hsortL i j h1 h2 hjA
    · rcases le_or_lt j p with hjB | hjB
      · have hjp : j = p := by omega
        rw [hjp, vM]
        exact vL i h1 hiA
      · exact le_of_lt (lt_of_le_of_lt (vL i h1 hiA) (vR j (by omega) h3))
  · rcases le_or_lt i p with hiB | hiB
    · have hip : i = p := by omega
      rcases le_or_lt j p with hjB | hjB
      · have hjp : j = p := by omega
        rw [hip, hjp]
      · rw [hip, vM]
        exact le_of_lt (vR j (by omega) h3)
    · exact hRsort i j (by omega) h2 h3

end GoSort

/-! ### Full correctness of the two quicksort engines -/

namespace GoSort

theorem quickSortPartitionF_spec :
    ∀ (fuel : Nat) (f : Int → Int) (lo hi : Int), (hi - lo).toNat < fuel →
      (∀ k, k < lo ∨ hi < k → quickSortPartitionF fuel f lo hi k = f k)
      ∧ (readRange (quickSortPartitionF fuel f lo hi) lo hi).Perm (readRange f lo hi)
      ∧ SortedRange (quickSortPartitionF fuel f lo hi) lo hi := by
  intro fuel
  induction fuel with
  | zero =>
    intro f lo hi hfuel
    omega
  | succ fuel ih =>
    intro f lo hi hfuel
    by_cases hlh : hi ≤ lo
    · have hQ : quickSortPartitionF (fuel + 1) f lo hi = f := by
        simp only [quickSortPartitionF, if_pos hlh]
      rw [hQ]
      exact ⟨fun k _ => rfl, List.Perm.refl _, sortedRange_of_le hlh⟩
    · by_cases hsm : smallPartition lo hi = true
      · have hQ : quickSortPartitionF (fuel + 1) f lo hi = seqSortRange f lo hi := by
          simp only [quickSortPartitionF, if_neg hlh, if_pos hsm]
        rw [hQ]
        exact ⟨fun k hk => seqSortRange_untouched f k hk,
          seqSortRange_perm f (by omega), seqSortRange_sorted f (by omega)⟩
      · rcases hre : partition3Way f lo hi with ⟨g0, lt, gt⟩
        obtain ⟨pv, hmed, ⟨hb1, hb2, hb3⟩, z1, z2, z3, hout, hperm⟩ :=
          partition3Way_spec f (by omega) g0 lt gt hre
        have hunf : quickSortPartitionF (fuel + 1) f lo hi
            = (if hi ≤ gt + 1
                then (if lt - 1 ≤ lo then g0 else quickSortPartitionF fuel g0 lo (lt - 1))
                else quickSortPartitionF fuel
                  (if lt - 1 ≤ lo then g0 else quickSortPartitionF fuel g0 lo (lt - 1))
                  (gt + 1) hi) := by
          simp only [quickSortPartitionF, if_neg hlh, if_neg hsm, hre]
        set fL := if lt - 1 ≤ lo then g0 else quickSortPartitionF fuel g0 lo (lt - 1) with hfL
        have hLfacts : (∀ k, k < lo ∨ lt - 1 < k → fL k = g0 k)
            ∧ (readRange fL lo (lt - 1)).Perm (readRange g0 lo (lt - 1))
            ∧ SortedRange fL lo (lt - 1) := by
          rw [hfL]
          split_ifs with hc
          · exact ⟨fun k _ => rfl, List.Perm.refl _, sortedRange_of_le (by omega)⟩
          · have hfb : (lt - 1 - lo).toNat < fuel := by omega
            have H := ih g0 lo (lt - 1) hfb
            exact ⟨fun k hk => H.1 k hk, H.2.1, H.2.2⟩
        by_cases hgh : hi ≤ gt + 1
        · rw [if_pos hgh] at hunf
          rw [hunf]
          exact combine_spec hb1 hb2 hb3 z1 z2 z3 hout hperm hLfacts.1 hLfacts.2.1 hLfacts.2.2
            (fun k _ => rfl) (List.Perm.refl _) (sortedRange_of_le (by omega))
        · rw [if_neg hgh] at hunf
          have hRih := ih fL (gt + 1) hi (by omega)
          rw [hunf]
          exact combine_spec hb1 hb2 hb3 z1 z2 z3 hout hperm hLfacts.1 hLfacts.2.1 hLfacts.2.2
            hRih.1 hRih.2.1 hRih.2.2

theorem quickSortJobF_spec :
    ∀ (fuel : Nat) (f : Int → Int) (lo hi : Int), (hi - lo).toNat < fuel →
      (∀ k, k < lo ∨ hi < k → quickSortJobF fuel f lo hi k = f k)
      ∧ (readRange (quickSortJobF fuel f lo hi) lo hi).Perm (readRange f lo hi)
      ∧ SortedRange (quickSortJobF fuel f lo hi) lo hi := by
  intro fuel
  induction fuel with
  | zero =>
    intro f lo hi hfuel
    omega
  | succ fuel ih =>
    intro f lo hi hfuel
    by_cases hlh : hi ≤ lo
    · have hQ : quickSortJobF (fuel + 1) f lo hi = f := by
        simp only [quickSortJobF, if_pos hlh]
      rw [hQ]
      exact ⟨fun k _ => rfl, List.Perm.refl _, sortedRange_of_le hlh⟩
    · by_cases hsm : smallJob lo hi = true
      · have hQ : quickSortJobF (fuel + 1) f lo hi = seqSortRange f lo hi := by
          simp only [quickSortJobF, if_neg hlh, if_pos hsm]
        rw [hQ]
        exact ⟨fun k hk => seqSortRange_untouched f k hk,
          seqSortRange_perm f (by omega), seqSortRange_sorted f (by omega)⟩
      · rcases hre : partitionMedian f lo hi with ⟨g0, p⟩
        obtain ⟨pv, hmed, ⟨hb1, hb3⟩, zp, z1, z3, hout, hperm⟩ :=
          partitionMedian_spec f (by omega) g0 p hre
        have hunf : quickSortJobF (fuel + 1) f lo hi
            = (if hi ≤ p + 1
                then (if p - 1 ≤ lo then g0 else quickSortJobF fuel g0 lo (p - 1))
                else quickSortJobF fuel
                  (if p - 1 ≤ lo then g0 else quickSortJobF fuel g0 lo (p - 1))
                  (p + 1) hi) := by
          simp only [quickSortJobF, if_neg hlh, if_neg hsm, hre]
        set fL := if p - 1 ≤ lo then g0 else quickSortJobF fuel g0 lo (p - 1) with hfL
        have hLfacts : (∀ k, k < lo ∨ p - 1 < k → fL k = g0 k)
            ∧ (readRange fL lo (p - 1)).Perm (readRange g0 lo (p - 1))
            ∧ SortedRange fL lo (p - 1) := by
          rw [hfL]
          split_ifs with hc
          · exact ⟨fun k _ => rfl, List.Perm.refl _, sortedRange_of_le (by omega)⟩
          · have hfb : (p - 1 - lo).toNat < fuel := by omega
            have H := ih g0 lo (p - 1) hfb
            exact ⟨fun k hk => H.1 k hk, H.2.1, H.2.2⟩
        by_cases hgh : hi ≤ p + 1
        · rw [if_pos hgh] at hunf
          rw [hunf]
          exact combine2_spec hb1 hb3 z1 zp z3 hout hperm hLfacts.1 hLfacts.2.1 hLfacts.2.2
            (fun k _ => rfl) (List.Perm.refl _) (sortedRange_of_le (by omega))
        · rw [if_neg hgh] at hunf
          have hRih := ih fL (p + 1) hi (by omega)
          rw [hunf]
          exact combine2_spec hb1 hb3 z1 zp z3 hout hperm hLfacts.1 hLfacts.2.1 hLfacts.2.2
            hRih.1 hRih.2.1 hRih.2.2

theorem pairwise_of_short {l : List Int} (h : l.length ≤ 1) : l.Pairwise (· ≤ ·) := by
  rcases l with _ | ⟨x, _ | ⟨y, t⟩⟩
  · exact List.Pairwise.nil
  · simp
  · simp at h

theorem ParallelQuickSortV2_correct (arr : List Int) (workers : Int) :
    (ParallelQuickSortV2 arr workers).Perm arr
    ∧ (ParallelQuickSortV2 arr workers).Pairwise (· ≤ ·) := by
  unfold ParallelQuickSortV2
  by_cases hlen : arr.length ≤ 1
  · rw [if_pos hlen]
    exact ⟨List.Perm.refl _, pairwise_of_short hlen⟩
  · rw [if_neg hlen]
    have hspec := quickSortPartitionF_spec arr.length (ofList arr) 0 ((arr.length : Int) - 1)
      (by omega)
    constructor
    · rw [toListFn_eq_readRange]
      refine hspec.2.1.trans ?_
      rw [← toListFn_eq_readRange, toListFn_ofList]
    · exact pairwise_toListFn hspec.2.2

theorem ParallelQuickSortV1_correct (arr : List Int) (workers : Int) :
    (ParallelQuickSortV1 arr workers).Perm arr
    ∧ (ParallelQuickSortV1 arr workers).Pairwise (· ≤ ·) := by
  unfold ParallelQuickSortV1
  by_cases hlen : arr.length ≤ 1
  · rw [if_pos hlen]
    exact ⟨List.Perm.refl _, pairwise_of_short hlen⟩
  · rw [if_neg hlen]
    have hspec := quickSortJobF_spec arr.length (ofList arr) 0 ((arr.length : Int) - 1)
      (by omega)
    constructor
    · rw [toListFn_eq_readRange]
      refine hspec.2.1.trans ?_
      rw [← toListFn_eq_readRange, toListFn_ofList]
    · exact pairwise_toListFn hspec.2.2

end GoSort

/-! ### Digit arithmetic and the counting phase -/

namespace GoSort

theorem goDigit_bounds {exp base x : Int} (hx : 0 ≤ x) (he : 0 < exp) (hb : 0 < base) :
    0 ≤ goDigit exp base x ∧ goDigit exp base x < base := by
  unfold goDigit
  rw [Int.tdiv_eq_ediv hx (by omega),
    Int.tmod_eq_emod (Int.ediv_nonneg hx (by omega)) (by omega)]
  exact ⟨Int.emod_nonneg _ (by omega), Int.emod_lt_of_pos _ hb⟩

theorem goDigit_eq_emod {exp base x : Int} (hx : 0 ≤ x) (he : 0 < exp) (hb : 0 < base) :
    goDigit exp base x = x / exp % base := by
  unfold goDigit
  rw [Int.tdiv_eq_ediv hx (by omega),
    Int.tmod_eq_emod (Int.ediv_nonneg hx (by omega)) (by omega)]

theorem list_eq_range_map_getD (l : List Nat) :
    l = (List.range l.length).map fun d => l.getD d 0 := by
  apply List.ext_getElem
  · simp
  · intro n h1 h2
    simp only [List.getElem_map, List.getElem_range]
    exact (List.getD_eq_getElem _ _ h1).symm

theorem cntd_cons_self {exp base : Int} {d : Nat} {x : Int} (xs : List Int)
    (hx : goDigit exp base x = (d : Int)) :
    cntd exp base d (x :: xs) = cntd exp base d xs + 1 := by
  simp only [cntd, List.countP_cons]
  rw [if_pos (by simp [hx])]

theorem cntd_cons_ne {exp base : Int} {d : Nat} {x : Int} (xs : List Int)
    (hx : goDigit exp base x ≠ (d : Int)) :
    cntd exp base d (x :: xs) = cntd exp base d xs := by
  simp only [cntd, List.countP_cons]
  rw [if_neg (by simpa using hx)]
  omega

theorem countDigits_eq (exp base : Int) :
    ∀ (l : List Int) (counts : List Nat),
      (∀ x ∈ l, 0 ≤ goDigit exp base x ∧ goDigit exp base x < (counts.length : Int)) →
      countDigits exp base l counts
        = some ((List.range counts.length).map fun d => counts.getD d 0 + cntd exp base d l) := by
  intro l
  induction l with
  | nil =>
    intro counts _
    simp only [countDigits]
    congr 1
    have : ∀ d : Nat, counts.getD d 0 + cntd exp base d [] = counts.getD d 0 := by
      intro d
      simp [cntd]
    simp only [this]
    exact list_eq_range_map_getD counts
  | cons x xs ih =>
    intro counts h
    have hx := h x (by simp)
    have hbump : bump counts (goDigit exp base x)
        = some (counts.set (goDigit exp base x).toNat
            (counts.getD (goDigit exp base x).toNat 0 + 1)) := by
      simp only [bump]
      rw [if_pos ⟨hx.1, hx.2⟩]
    have helt : (goDigit exp base x).toNat < counts.length := by omega
    have hee : (((goDigit exp base x).toNat : Nat) : Int) = goDigit exp base x :=
      Int.toNat_of_nonneg hx.1
    simp only [countDigits, hbump, Option.some_bind]
    rw [ih _ (by intro y hy; rw [List.length_set]; exact h y (by simp [hy]))]
    congr 1
    rw [List.length_set]
    apply List.ext_getElem
    · simp
    · intro d h1 h2
      simp only [List.getElem_map, List.getElem_range]
      by_cases hde : d = (goDigit exp base x).toNat
      · subst hde
        rw [getD_set_eq counts 0 _ helt]
        rw [cntd_cons_self xs hee.symm]
        omega
      · rw [getD_set_ne counts 0 _ (fun hcon => hde hcon.symm)]
        rw [cntd_cons_ne xs (by rw [← hee]; intro hcon; exact hde (by omega))]

theorem chunksList_mem (cs : Nat) :
    ∀ (W : Nat) (arr : List Int) (c : List Int), c ∈ chunksList cs W arr →
      ∀ x ∈ c, x ∈ arr := by
  intro W
  induction W with
  | zero =>
    intro arr c hc
    simp [chunksList] at hc
  | succ W ih =>
    intro arr c hc x hx
    simp only [chunksList, List.mem_cons] at hc
    rcases hc with rfl | hc
    · exact List.mem_of_mem_take hx
    · exact List.mem_of_mem_drop (ih _ c hc x hx)

theorem chunksList_cntd (exp base : Int) (d cs : Nat) :
    ∀ (W : Nat) (arr : List Int), arr.length ≤ W * cs →
      ((chunksList cs W arr).map fun c => cntd exp base d c).sum = cntd exp base d arr := by
  intro W
  induction W with
  | zero =>
    intro arr h
    have harr : arr = [] := List.eq_nil_of_length_eq_zero (by omega)
    subst harr
    simp [chunksList, cntd]
  | succ W ih =>
    intro arr h
    simp only [chunksList, List.map_cons, List.sum_cons]
    have hmul : (W + 1) * cs = W * cs + cs := by ring
    rw [ih (arr.drop cs) (by rw [List.length_drop]; omega)]
    have hsplit : cntd exp base d arr
        = cntd exp base d (arr.take cs) + cntd exp base d (arr.drop cs) := by
      conv_lhs => rw [← List.take_append_drop cs arr]
      simp only [cntd, List.countP_append]
    rw [hsplit]

theorem localCountsAll_eq (exp base : Int) (hb : 0 < base) :
    ∀ (chunks : List (List Int)),
      (∀ c ∈ chunks, ∀ x ∈ c, 0 ≤ goDigit exp base x ∧ goDigit exp base x < base) →
      localCountsAll exp base base.toNat chunks
        = some (chunks.map fun c => (List.range base.toNat).map fun d => cntd exp base d c) := by
  intro chunks
  induction chunks with
  | nil =>
    intro _
    simp [localCountsAll]
  | cons c cs ih =>
    intro h
    have hcd := countDigits_eq exp base c (List.replicate base.toNat 0)
      (by intro x hxc
          rw [List.length_replicate]
          have := h c (by simp) x hxc
          omega)
    simp only [localCountsAll, hcd, Option.some_bind,
      ih (fun c2 hc2 x hx => h c2 (by simp [hc2]) x hx)]
    simp only [List.length_replicate]
    have hrep : ∀ d : Nat, d < base.toNat →
        (List.replicate base.toNat (0 : Nat)).getD d 0 = 0 := by
      intro d hd
      rw [List.getD_eq_getElem _ _ (by simpa using hd)]
      simp
    have hmaps : ((List.range base.toNat).map fun d =>
          (List.replicate base.toNat (0 : Nat)).getD d 0 + cntd exp base d c)
        = (List.range base.toNat).map fun d => cntd exp base d c := by
      refine List.map_congr_left ?_
      intro d hd
      rw [hrep d (List.mem_range.1 hd)]
      omega
    rw [hmaps]
    simp [List.map_cons]

theorem mergeCounts_aux (b : Nat) :
    ∀ (locals : List (List Nat)) (acc : List Nat), acc.length = b →
      (∀ c ∈ locals, c.length = b) →
      (locals.foldl (fun a c => List.zipWith (fun x y => x + y) a c) acc).length = b
      ∧ ∀ d, d < b →
        (locals.foldl (fun a c => List.zipWith (fun x y => x + y) a c) acc).getD d 0
          = acc.getD d 0 + ((locals.map fun c => c.getD d 0).sum) := by
  intro locals
  induction locals with
  | nil =>
    intro acc h1 _
    exact ⟨h1, fun d _ => by simp⟩
  | cons c cs ih =>
    intro acc h1 h2
    have hc : c.length = b := h2 c (by simp)
    have hzlen : (List.zipWith (fun x y => x + y) acc c).length = b := by
      rw [List.length_zipWith, h1, hc]
      exact min_self b
    have H := ih (List.zipWith (fun x y => x + y) acc c) hzlen
      (fun c2 hc2 => h2 c2 (by simp [hc2]))
    refine ⟨H.1, fun d hd => ?_⟩
    simp only [List.foldl_cons]
    rw [H.2 d hd]
    have hz : (List.zipWith (fun x y => x + y) acc c).getD d 0
        = acc.getD d 0 + c.getD d 0 := by
      rw [List.getD_eq_getElem _ _ (by rw [hzlen]; exact hd), List.getElem_zipWith,
        List.getD_eq_getElem _ _ (by rw [h1]; exact hd),
        List.getD_eq_getElem _ _ (by rw [hc]; exact hd)]
    rw [hz]
    simp only [List.map_cons, List.sum_cons]
    omega

theorem mergedHistogram_eq {arr : List Int} {exp base workers : Int}
    (hw : 1 ≤ workers) (he : 0 < exp) (hb : 0 < base) (hx : ∀ x ∈ arr, 0 ≤ x) :
    mergedHistogram arr exp base workers
      = some ((List.range base.toNat).map fun d => cntd exp base d arr) := by
  simp only [mergedHistogram]
  rw [if_neg (by omega)]
  have hcover : arr.length ≤ workers.toNat * ((arr.length + workers.toNat - 1) / workers.toNat) := by
    have hw1 : 1 ≤ workers.toNat := by omega
    have hdm := Nat.div_add_mod (arr.length + workers.toNat - 1) workers.toNat
    have hmod : (arr.length + workers.toNat - 1) % workers.toNat < workers.toNat :=
      Nat.mod_lt _ (by omega)
    omega
  rw [localCountsAll_eq exp base hb _ ?hdig]
  case hdig =>
    intro c hc x hxc
    exact goDigit_bounds (hx x (chunksList_mem _ _ arr c hc x hxc)) he hb
  rw [Option.some_bind]
  congr 1
  have hlens : ∀ c2 ∈ (chunksList ((arr.length + workers.toNat - 1) / workers.toNat)
        workers.toNat arr).map fun c => (List.range base.toNat).map
          fun d => cntd exp base d c, c2.length = base.toNat := by
    intro c2 hc2
    rcases List.mem_map.1 hc2 with ⟨c, _, rfl⟩
    simp
  have H := mergeCounts_aux base.toNat _ (List.replicate base.toNat 0)
    (List.length_replicate _ _) hlens
  simp only [mergeCounts]
  apply List.ext_getElem
  · rw [H.1]
    simp
  · intro d h1 h2
    rw [← List.getD_eq_getElem _ 0 h1, ← List.getD_eq_getElem _ 0 h2]
    have hd : d < base.toNat := by
      rw [H.1] at h1
      exact h1
    rw [H.2 d hd]
    have hrep : (List.replicate base.toNat (0 : Nat)).getD d 0 = 0 := by
      rw [List.getD_eq_getElem _ _ (by simpa using hd)]
      simp
    rw [hrep, List.map_map]
    have hcomp : ((fun c2 : List Nat => c2.getD d 0) ∘ fun c => (List.range base.toNat).map
          fun d2 => cntd exp base d2 c)
        = fun c : List Int => cntd exp base d c := by
      funext c
      simp only [Function.comp]
      rw [List.getD_eq_getElem _ _ (by simpa using hd)]
      simp
    rw [hcomp, chunksList_cntd exp base d _ _ arr hcover]
    have hgd : ((List.range base.toNat).map fun d2 => cntd exp base d2 arr).getD d 0
        = cntd exp base d arr := by
      rw [List.getD_eq_getElem _ _ (by simpa using hd)]
      simp
    rw [hgd]
    omega

end GoSort

/-! ### The cumulative-count conversion -/

namespace GoSort

theorem lowCount_zero {exp base : Int} {l : List Int}
    (hx : ∀ x ∈ l, 0 ≤ goDigit exp base x) : lowCount exp base 0 l = 0 := by
  unfold lowCount
  rw [List.countP_eq_zero]
  intro x hxl
  have := hx x hxl
  simp only [Nat.cast_zero, decide_eq_true_eq]
  omega

theorem lowCount_succ (exp base : Int) (e : Nat) (l : List Int) :
    lowCount exp base (e + 1) l = lowCount exp base e l + cntd exp base e l := by
  induction l with
  | nil => simp [lowCount, cntd]
  | cons x xs ih =>
    simp only [lowCount, cntd, List.countP_cons] at ih ⊢
    rcases lt_trichotomy (goDigit exp base x) ((e : Nat) : Int) with hc | hc | hc
    · rw [if_pos (by simp only [decide_eq_true_eq]; push_cast; omega),
        if_pos (by simp only [decide_eq_true_eq]; exact hc),
        if_neg (by simp only [decide_eq_true_eq]; omega)]
      omega
    · rw [if_pos (by simp only [decide_eq_true_eq]; push_cast; omega),
        if_neg (by simp only [decide_eq_true_eq]; omega),
        if_pos (by simp only [decide_eq_true_eq]; exact hc)]
      omega
    · rw [if_neg (by simp only [decide_eq_true_eq]; push_cast; omega),
        if_neg (by simp only [decide_eq_true_eq]; omega),
        if_neg (by simp only [decide_eq_true_eq]; omega)]
      omega

theorem lowCount_eq_length {exp base : Int} {b : Nat} {l : List Int}
    (h : ∀ x ∈ l, goDigit exp base x < (b : Int)) : lowCount exp base b l = l.length := by
  unfold lowCount
  rw [List.countP_eq_length]
  intro x hxl
  simpa using h x hxl

theorem cumulate_length : ∀ (l : List Nat) (acc : Nat), (cumulate l acc).length = l.length := by
  intro l
  induction l with
  | nil => intro acc; simp [cumulate]
  | cons x xs ih => intro acc; simp [cumulate, ih]

theorem cumulate_getD : ∀ (l : List Nat) (acc d : Nat), d < l.length →
    (cumulate l acc).getD d 0 = acc + (l.take (d + 1)).sum := by
  intro l
  induction l with
  | nil =>
    intro acc d h
    simp at h
  | cons x xs ih =>
    intro acc d h
    cases d with
    | zero => simp [cumulate]
    | succ d =>
      simp only [cumulate, List.getD_cons_succ, List.take_succ_cons, List.sum_cons]
      rw [ih (acc + x) d (by simpa using h)]
      omega

theorem sum_range_cntd (exp base : Int) {l : List Int}
    (hx : ∀ x ∈ l, 0 ≤ goDigit exp base x) :
    ∀ e : Nat, ((List.range e).map fun d => cntd exp base d l).sum = lowCount exp base e l := by
  intro e
  induction e with
  | zero => simp [lowCount_zero hx]
  | succ e ih =>
    rw [List.range_succ, List.map_append, List.sum_append, ih, lowCount_succ]
    simp

theorem cumExpected_length (exp base : Int) (arr pre : List Int) (b : Nat) :
    (cumExpected exp base arr pre b).length = b := by
  simp [cumExpected]

theorem cumExpected_getD {exp base : Int} {arr pre : List Int} {b d : Nat} (hd : d < b) :
    (cumExpected exp base arr pre b).getD d 0
      = lowCount exp base d arr + cntd exp base d pre := by
  unfold cumExpected
  rw [List.getD_eq_getElem _ _ (by simpa using hd)]
  simp

theorem globalCumulative_eq {arr : List Int} {exp base workers : Int}
    (hw : 1 ≤ workers) (he : 0 < exp) (hb : 0 < base) (hx : ∀ x ∈ arr, 0 ≤ x) :
    globalCumulative arr exp base workers
      = some (cumExpected exp base arr arr base.toNat) := by
  have hdig : ∀ x ∈ arr, 0 ≤ goDigit exp base x :=
    fun x hxa => (goDigit_bounds (hx x hxa) he hb).1
  unfold globalCumulative
  rw [mergedHistogram_eq hw he hb hx, Option.some_bind]
  congr 1
  apply List.ext_getElem
  · rw [cumulate_length]
    simp [cumExpected]
  · intro d h1 h2
    rw [← List.getD_eq_getElem _ 0 h1, ← List.getD_eq_getElem _ 0 h2]
    have hd : d < base.toNat := by
      rw [cumulate_length] at h1
      simpa using h1
    rw [cumulate_getD _ 0 d (by simpa using hd)]
    rw [← List.map_take, List.take_range]
    have hmin : (d + 1) ⊓ base.toNat = d + 1 := by omega
    rw [hmin, sum_range_cntd exp base hdig (d + 1), lowCount_succ, cumExpected_getD hd]
    omega

end GoSort

/-! ### The placement loop: output-buffer bookkeeping -/

namespace GoSort

theorem cntd_append (exp base : Int) (d : Nat) (l1 l2 : List Int) :
    cntd exp base d (l1 ++ l2) = cntd exp base d l1 + cntd exp base d l2 := by
  simp [cntd, List.countP_append]

theorem lowCount_append (exp base : Int) (e : Nat) (l1 l2 : List Int) :
    lowCount exp base e (l1 ++ l2) = lowCount exp base e l1 + lowCount exp base e l2 := by
  simp [lowCount, List.countP_append]

theorem cntd_singleton_self {exp base : Int} {y : Int} {e : Nat}
    (hy : goDigit exp base y = (e : Int)) : cntd exp base e [y] = 1 := by
  simp [cntd, List.countP_cons, hy]

theorem cntd_singleton_ne {exp base : Int} {y : Int} {e d : Nat}
    (hy : goDigit exp base y = (e : Int)) (hde : d ≠ e) : cntd exp base d [y] = 0 := by
  simp only [cntd, List.countP_cons, List.countP_nil]
  rw [if_neg (by simp only [decide_eq_true_eq, hy]; intro hcon; exact hde (by omega))]

theorem lowCount_singleton_le {exp base : Int} {y : Int} {e d : Nat}
    (hy : goDigit exp base y = (e : Int)) (hde : d ≤ e) : lowCount exp base d [y] = 0 := by
  simp only [lowCount, List.countP_cons, List.countP_nil]
  rw [if_neg (by simp only [decide_eq_true_eq, hy]; push_cast; omega)]

theorem lowCount_singleton_gt {exp base : Int} {y : Int} {e d : Nat}
    (hy : goDigit exp base y = (e : Int)) (hde : e < d) : lowCount exp base d [y] = 1 := by
  simp only [lowCount, List.countP_cons, List.countP_nil]
  rw [if_pos (by simp only [decide_eq_true_eq, hy]; push_cast; omega)]

theorem lowCount_mono (exp base : Int) (l : List Int) {e e2 : Nat} (h : e ≤ e2) :
    lowCount exp base e l ≤ lowCount exp base e2 l := by
  induction e2 with
  | zero =>
    have he0 : e = 0 := by omega
    subst he0
    exact le_rfl
  | succ e2 ih =>
    rcases Nat.lt_or_ge e (e2 + 1) with h2 | h2
    · have := ih (by omega)
      rw [lowCount_succ]
      omega
    · have heq : e = e2 + 1 := by omega
      subst heq
      exact le_rfl

theorem bucketOf_cons_self {exp base : Int} {y : Int} {e : Nat} (suf : List Int)
    (hy : goDigit exp base y = (e : Int)) :
    bucketOf exp base e (y :: suf) = y :: bucketOf exp base e suf := by
  simp [bucketOf, List.filter_cons, hy]

theorem bucketOf_cons_ne {exp base : Int} {y : Int} {e d : Nat} (suf : List Int)
    (hy : goDigit exp base y = (e : Int)) (hde : d ≠ e) :
    bucketOf exp base d (y :: suf) = bucketOf exp base d suf := by
  simp only [bucketOf, List.filter_cons]
  rw [if_neg (by simp only [decide_eq_true_eq, hy]; intro hcon; exact hde (by omega))]

theorem bucketOf_length (exp base : Int) (d : Nat) (l : List Int) :
    (bucketOf exp base d l).length = cntd exp base d l := by
  simp [bucketOf, cntd, List.countP_eq_length_filter]

theorem segs_length {exp base : Int} {pre suf : List Int}
    (hp : ∀ x ∈ pre, 0 ≤ goDigit exp base x) (hs : ∀ x ∈ suf, 0 ≤ goDigit exp base x) :
    ∀ b : Nat, (segs exp base pre suf b).length
      = lowCount exp base b pre + lowCount exp base b suf := by
  intro b
  induction b with
  | zero => simp [segs, lowCount_zero hp, lowCount_zero hs]
  | succ b ih =>
    simp only [segs, List.length_append, List.length_replicate, bucketOf_length, ih,
      lowCount_succ]
    omega

theorem segs_congr {exp base : Int} {pre pre2 suf suf2 : List Int} :
    ∀ b : Nat, (∀ d : Nat, d < b → cntd exp base d pre = cntd exp base d pre2
        ∧ bucketOf exp base d suf = bucketOf exp base d suf2) →
      segs exp base pre suf b = segs exp base pre2 suf2 b := by
  intro b
  induction b with
  | zero => intro _; rfl
  | succ b ih =>
    intro h
    simp only [segs]
    rw [ih (fun d hd => h d (by omega)), (h b (by omega)).1, (h b (by omega)).2]

theorem replicate_set_last (c : Nat) (y : Int) :
    (List.replicate (c + 1) (0 : Int)).set c y = List.replicate c 0 ++ [y] := by
  rw [List.replicate_succ']
  rw [List.set_append, if_neg (by simp)]
  simp

theorem segs_set {exp base : Int} {pre2 suf : List Int} {y : Int} {e : Nat}
    (hy : goDigit exp base y = (e : Int))
    (hp : ∀ x ∈ pre2, 0 ≤ goDigit exp base x) (hs : ∀ x ∈ suf, 0 ≤ goDigit exp base x) :
    ∀ b : Nat, e < b →
      (segs exp base (pre2 ++ [y]) suf b).set
          (lowCount exp base e pre2 + lowCount exp base e suf + cntd exp base e pre2) y
        = segs exp base pre2 (y :: suf) b := by
  have hy0 : (0 : Int) ≤ goDigit exp base y := by
    rw [hy]
    positivity
  have hp2 : ∀ x ∈ pre2 ++ [y], 0 ≤ goDigit exp base x := by
    intro x hx
    rcases List.mem_append.1 hx with hx | hx
    · exact hp x hx
    · simp only [List.mem_singleton] at hx
      subst hx
      exact hy0
  intro b
  induction b with
  | zero => intro h; omega
  | succ b ih =>
    intro heb
    simp only [segs]
    rcases Nat.lt_or_ge e b with heb2 | heb2
    · rw [List.set_append, if_pos ?hin]
      case hin =>
        rw [segs_length hp2 hs b]
        have h1 : lowCount exp base b (pre2 ++ [y]) = lowCount exp base b pre2 + 1 := by
          rw [lowCount_append, lowCount_singleton_gt hy heb2]
        have h2 : lowCount exp base e pre2 + cntd exp base e pre2
            ≤ lowCount exp base b pre2 := by
          rw [← lowCount_succ]
          exact lowCount_mono exp base pre2 (by omega)
        have h3 : lowCount exp base e suf ≤ lowCount exp base b suf :=
          lowCount_mono exp base suf (by omega)
        omega
      rw [ih heb2]
      congr 2
      · rw [cntd_append, cntd_singleton_ne hy (by omega)]
        simp
      · rw [bucketOf_cons_ne suf hy (by omega)]
        try rfl
    · have heb3 : e = b := by omega
      subst heb3
      have hlow : lowCount exp base e (pre2 ++ [y]) = lowCount exp base e pre2 := by
        rw [lowCount_append, lowCount_singleton_le hy le_rfl]
        omega
      rw [List.set_append, if_neg ?hnot]
      case hnot =>
        rw [segs_length hp2 hs e, hlow]
        omega
      have hidx : lowCount exp base e pre2 + lowCount exp base e suf + cntd exp base e pre2
          - (segs exp base (pre2 ++ [y]) suf e).length = cntd exp base e pre2 := by
        rw [segs_length hp2 hs e, hlow]
        omega
      rw [hidx]
      have hcnt : cntd exp base e (pre2 ++ [y]) = cntd exp base e pre2 + 1 := by
        rw [cntd_append, cntd_singleton_self hy]
        try rfl
      rw [hcnt, List.set_append, if_pos (by simp)]
      rw [replicate_set_last (cntd exp base e pre2) y]
      rw [bucketOf_cons_self suf hy]
      have hpre : segs exp base (pre2 ++ [y]) suf e = segs exp base pre2 (y :: suf) e := by
        refine segs_congr e ?_
        intro d hd
        constructor
        · rw [cntd_append, cntd_singleton_ne hy (by omega)]
          omega
        · rw [bucketOf_cons_ne suf hy (by omega)]
      rw [hpre, List.append_assoc, List.singleton_append]

theorem cumExpected_set {exp base : Int} {arr pre2 : List Int} {y : Int} {e b : Nat}
    (hy : goDigit exp base y = (e : Int)) (heb : e < b) :
    (cumExpected exp base arr (pre2 ++ [y]) b).set e
        (lowCount exp base e arr + cntd exp base e pre2)
      = cumExpected exp base arr pre2 b := by
  apply List.ext_getElem
  · simp [cumExpected]
  · intro d h1 h2
    have hd : d < b := by
      have := cumExpected_length exp base arr pre2 b
      omega
    rw [List.getElem_set]
    rw [← List.getD_eq_getElem _ 0 h2, cumExpected_getD hd]
    split
    · next hde =>
      subst hde
      rfl
    · next hde =>
      rw [← List.getD_eq_getElem _ 0 (by simpa [cumExpected_length] using hd),
        cumExpected_getD hd]
      rw [cntd_append, cntd_singleton_ne hy (fun hcon => hde hcon.symm)]
      omega

end GoSort

namespace GoSort

theorem placeLoop_spec {exp base : Int} (hb : 0 < base) :
    ∀ (rev suf : List Int),
      (∀ x ∈ rev, 0 ≤ goDigit exp base x ∧ goDigit exp base x < base) →
      (∀ x ∈ suf, 0 ≤ goDigit exp base x ∧ goDigit exp base x < base) →
      placeLoop exp base rev
          (cumExpected exp base (rev.reverse ++ suf) rev.reverse base.toNat)
          (segs exp base rev.reverse suf base.toNat)
        = some (segs exp base [] (rev.reverse ++ suf) base.toNat,
            cumExpected exp base (rev.reverse ++ suf) [] base.toNat) := by
  intro rev
  induction rev with
  | nil =>
    intro suf _ _
    simp [placeLoop]
  | cons y rev2 ih =>
    intro suf hr hs
    have hy := hr y (by simp)
    have hye : goDigit exp base y = (((goDigit exp base y).toNat : Nat) : Int) :=
      (Int.toNat_of_nonneg hy.1).symm
    set e := (goDigit exp base y).toNat with hedef
    have heb : e < base.toNat := by omega
    have hr2 : ∀ x ∈ rev2, 0 ≤ goDigit exp base x ∧ goDigit exp base x < base :=
      fun x hx => hr x (by simp [hx])
    have hp2 : ∀ x ∈ rev2.reverse, 0 ≤ goDigit exp base x :=
      fun x hx => (hr2 x (List.mem_reverse.1 hx)).1
    have hs2 : ∀ x ∈ suf, 0 ≤ goDigit exp base x := fun x hx => (hs x hx).1
    have hpy : ∀ x ∈ rev2.reverse ++ [y], 0 ≤ goDigit exp base x := by
      intro x hx
      rcases List.mem_append.1 hx with hx | hx
      · exact hp2 x hx
      · simp only [List.mem_singleton] at hx
        subst hx
        exact hy.1
    rw [List.reverse_cons]
    simp only [placeLoop]
    rw [if_pos ?g1]
    case g1 =>
      refine ⟨hy.1, ?_⟩
      rw [cumExpected_length]
      omega
    rw [← hedef]
    rw [cumExpected_getD heb]
    have hcnt : cntd exp base e (rev2.reverse ++ [y])
        = cntd exp base e rev2.reverse + 1 := by
      rw [cntd_append, cntd_singleton_self hye]
    have hlowpre : lowCount exp base e (rev2.reverse ++ [y])
        = lowCount exp base e rev2.reverse := by
      rw [lowCount_append, lowCount_singleton_le hye le_rfl]
      omega
    have hlowarr : lowCount exp base e ((rev2.reverse ++ [y]) ++ suf)
        = lowCount exp base e rev2.reverse + lowCount exp base e suf := by
      rw [lowCount_append, hlowpre]
    rw [if_pos ?g2]
    case g2 =>
      constructor
      · rw [hcnt]
        omega
      · rw [segs_length hpy hs2 base.toNat, hcnt, hlowarr]
        have hm1 : lowCount exp base e rev2.reverse + cntd exp base e rev2.reverse
            ≤ lowCount exp base base.toNat rev2.reverse := by
          rw [← lowCount_succ]
          exact lowCount_mono exp base _ (by omega)
        have hm2 : lowCount exp base e suf ≤ lowCount exp base base.toNat suf :=
          lowCount_mono exp base _ (by omega)
        have hm3 : lowCount exp base base.toNat (rev2.reverse ++ [y])
            = lowCount exp base base.toNat rev2.reverse + 1 := by
          rw [lowCount_append, lowCount_singleton_gt hye heb]
        omega
    have hsub1 : lowCount exp base e ((rev2.reverse ++ [y]) ++ suf)
          + cntd exp base e (rev2.reverse ++ [y]) - 1
        = lowCount exp base e ((rev2.reverse ++ [y]) ++ suf)
          + cntd exp base e rev2.reverse := by
      rw [hcnt]
      omega
    rw [hsub1, cumExpected_set hye heb]
    have hsub2 : lowCount exp base e ((rev2.reverse ++ [y]) ++ suf)
          + cntd exp base e rev2.reverse
        = lowCount exp base e rev2.reverse + lowCount exp base e suf
          + cntd exp base e rev2.reverse := by
      rw [hlowarr]
    rw [hsub2, segs_set hye hp2 hs2 base.toNat heb]
    have harr : (rev2.reverse ++ [y]) ++ suf = rev2.reverse ++ (y :: suf) := by
      simp
    rw [harr]
    exact ih (y :: suf) hr2 (by
      intro x hx
      rcases List.mem_cons.1 hx with rfl | hx
      · exact hy
      · exact hs x hx)

theorem segs_nil_suf {exp base : Int} {pre : List Int}
    (hp : ∀ x ∈ pre, 0 ≤ goDigit exp base x) :
    ∀ b : Nat, segs exp base pre [] b = List.replicate (lowCount exp base b pre) 0 := by
  intro b
  induction b with
  | zero => simp [segs, lowCount_zero hp]
  | succ b ih =>
    simp only [segs, ih, bucketOf, List.filter_nil, List.append_nil, lowCount_succ]
    rw [List.replicate_add]

theorem parallelCountingSort_eq_segs {arr : List Int} {exp base workers : Int}
    (hw : 1 ≤ workers) (he : 0 < exp) (hb : 0 < base) (hx : ∀ x ∈ arr, 0 ≤ x) :
    parallelCountingSort arr exp base workers
      = some (segs exp base [] arr base.toNat) := by
  unfold parallelCountingSort
  rw [globalCumulative_eq hw he hb hx, Option.some_bind]
  have hdig : ∀ x ∈ arr, 0 ≤ goDigit exp base x ∧ goDigit exp base x < base :=
    fun x hxa => goDigit_bounds (hx x hxa) he hb
  have hrev : ∀ x ∈ arr.reverse, 0 ≤ goDigit exp base x ∧ goDigit exp base x < base :=
    fun x hxr => hdig x (List.mem_reverse.1 hxr)
  have hplace := placeLoop_spec hb arr.reverse [] hrev (by intro x hx2; simp at hx2)
  rw [List.reverse_reverse, List.append_nil] at hplace
  have hinit : List.replicate arr.length (0 : Int) = segs exp base arr [] base.toNat := by
    rw [segs_nil_suf (fun x hxa => (hdig x hxa).1) base.toNat]
    rw [lowCount_eq_length (fun x hxa => by have := (hdig x hxa).2; omega)]
  rw [hinit, hplace, Option.some_bind]

end GoSort

/-! ### Bucket structure of the counting-sort output -/

namespace GoSort

theorem mem_segs {exp base : Int} {l : List Int} {x : Int} :
    ∀ b : Nat, x ∈ segs exp base [] l b → x ∈ l ∧ goDigit exp base x < (b : Int) := by
  intro b
  induction b with
  | zero =>
    intro h
    simp [segs] at h
  | succ b ih =>
    intro h
    simp only [segs, cntd, List.countP_nil, List.replicate_zero, List.nil_append,
      List.mem_append] at h
    rcases h with h | h
    · have := ih h
      refine ⟨this.1, ?_⟩
      push_cast
      omega
    · rw [bucketOf, List.mem_filter] at h
      refine ⟨h.1, ?_⟩
      have hd := h.2
      simp only [decide_eq_true_eq] at hd
      push_cast
      omega

theorem bucketOf_filter_low {exp base : Int} {l : List Int} {b d : Nat} (hd : d < b) :
    bucketOf exp base d (l.filter fun x => decide (goDigit exp base x < (b : Int)))
      = bucketOf exp base d l := by
  simp only [bucketOf, List.filter_filter]
  refine List.filter_congr ?_
  intro x _
  rcases eq_or_ne (goDigit exp base x) ((d : Nat) : Int) with hc | hc
  · have hlt : goDigit exp base x < ((b : Nat) : Int) := by
      rw [hc]
      push_cast
      omega
    simp [hc, hlt, hd]
  · simp [hc]

theorem segs_succ_filter {exp base : Int} (l : List Int) (b : Nat) :
    segs exp base [] l (b + 1)
      = segs exp base [] (l.filter fun x => decide (goDigit exp base x < (b : Int))) b
        ++ bucketOf exp base b l := by
  simp only [segs]
  congr 1
  exact segs_congr b (fun d hd => ⟨rfl, (bucketOf_filter_low hd).symm⟩)

theorem segs_perm {exp base : Int} :
    ∀ (b : Nat) (l : List Int),
      (∀ x ∈ l, 0 ≤ goDigit exp base x ∧ goDigit exp base x < (b : Int)) →
      (segs exp base [] l b).Perm l := by
  intro b
  induction b with
  | zero =>
    intro l h
    have hnil : l = [] := by
      cases l with
      | nil => rfl
      | cons a t =>
        have := h a (by simp)
        push_cast at this
        omega
    subst hnil
    simp [segs]
  | succ b ih =>
    intro l h
    rw [segs_succ_filter]
    have hfil := ih (l.filter fun x => decide (goDigit exp base x < (b : Int))) ?hfb
    case hfb =>
      intro x hx
      rw [List.mem_filter] at hx
      have h2 := hx.2
      simp only [decide_eq_true_eq] at h2
      exact ⟨(h x hx.1).1, h2⟩
    refine (List.Perm.append hfil (List.Perm.refl _)).trans ?_
    have hbeq : bucketOf exp base b l
        = l.filter fun x => !(decide (goDigit exp base x < (b : Int))) := by
      refine List.filter_congr ?_
      intro x hx
      have hx2 := h x hx
      push_cast at hx2
      rcases lt_or_ge (goDigit exp base x) ((b : Nat) : Int) with hlt | hge
      · have hne : goDigit exp base x ≠ ((b : Nat) : Int) := by omega
        simp [hne, hlt]
      · have heq : goDigit exp base x = ((b : Nat) : Int) := by omega
        have hnl : ¬ goDigit exp base x < ((b : Nat) : Int) := by omega
        simp [heq, hnl]
    rw [hbeq]
    exact List.filter_append_perm _ l

theorem segs_filter {exp base : Int} {dq : Int} :
    ∀ (b : Nat) (l : List Int),
      (∀ x ∈ l, 0 ≤ goDigit exp base x ∧ goDigit exp base x < (b : Int)) →
      (segs exp base [] l b).filter (fun x => decide (goDigit exp base x = dq))
        = l.filter fun x => decide (goDigit exp base x = dq) := by
  intro b
  induction b with
  | zero =>
    intro l h
    have hnil : l = [] := by
      cases l with
      | nil => rfl
      | cons a t =>
        have := h a (by simp)
        push_cast at this
        omega
    subst hnil
    simp [segs]
  | succ b ih =>
    intro l h
    rw [segs_succ_filter, List.filter_append]
    rw [ih (l.filter fun x => decide (goDigit exp base x < (b : Int))) ?hfb]
    case hfb =>
      intro x hx
      rw [List.mem_filter] at hx
      have h2 := hx.2
      simp only [decide_eq_true_eq] at h2
      exact ⟨(h x hx.1).1, h2⟩
    rcases eq_or_ne dq ((b : Nat) : Int) with hq | hq
    · have h1 : (l.filter fun x => decide (goDigit exp base x < ((b : Nat) : Int))).filter
          (fun x => decide (goDigit exp base x = dq)) = [] := by
        rw [List.filter_eq_nil_iff]
        intro a ha
        rw [List.mem_filter] at ha
        have h2 := ha.2
        simp only [decide_eq_true_eq] at h2 ⊢
        omega
      have h2 : (bucketOf exp base b l).filter
          (fun x => decide (goDigit exp base x = dq)) = bucketOf exp base b l := by
        rw [List.filter_eq_self]
        intro a ha
        rw [bucketOf, List.mem_filter] at ha
        have h3 := ha.2
        simp only [decide_eq_true_eq] at h3 ⊢
        omega
      rw [h1, h2, List.nil_append, hq]
      rfl
    · have h1 : (bucketOf exp base b l).filter
          (fun x => decide (goDigit exp base x = dq)) = [] := by
        rw [List.filter_eq_nil_iff]
        intro a ha
        rw [bucketOf, List.mem_filter] at ha
        have h2 := ha.2
        simp only [decide_eq_true_eq] at h2 ⊢
        omega
      rw [h1, List.append_nil, List.filter_filter]
      refine List.filter_congr ?_
      intro x hx
      have hx2 := h x hx
      push_cast at hx2
      rcases eq_or_ne (goDigit exp base x) dq with hc | hc
      · have hlt : dq < ((b : Nat) : Int) := by omega
        simp [hc, hlt]
      · simp [hc]

theorem segs_pairwise {exp base : Int} {R : Int → Int → Prop} :
    ∀ (b : Nat) (l : List Int),
      (∀ x ∈ l, 0 ≤ goDigit exp base x ∧ goDigit exp base x < (b : Int)) →
      (∀ x y, x ∈ l → y ∈ l → goDigit exp base x < goDigit exp base y → R x y) →
      (∀ d : Nat, (bucketOf exp base d l).Pairwise R) →
      (segs exp base [] l b).Pairwise R := by
  intro b
  induction b with
  | zero =>
    intro l _ _ _
    simp [segs]
  | succ b ih =>
    intro l h hcross hbuck
    rw [segs_succ_filter, List.pairwise_append]
    refine ⟨?_, hbuck b, ?_⟩
    · refine ih (l.filter fun x => decide (goDigit exp base x < (b : Int))) ?_ ?_ ?_
      · intro x hx
        rw [List.mem_filter] at hx
        have h2 := hx.2
        simp only [decide_eq_true_eq] at h2
        exact ⟨(h x hx.1).1, h2⟩
      · intro x y hx hy hxy
        rw [List.mem_filter] at hx hy
        exact hcross x y hx.1 hy.1 hxy
      · intro d
        refine List.Pairwise.sublist ?_ (hbuck d)
        exact List.Sublist.filter _ (List.filter_sublist l)
    · intro a ha c hc
      have ha2 := mem_segs b ha
      rw [List.mem_filter] at ha2
      have hc2 := hc
      rw [bucketOf, List.mem_filter] at hc2
      have hcd := hc2.2
      simp only [decide_eq_true_eq] at hcd
      have had := ha2.1.2
      simp only [decide_eq_true_eq] at had
      refine hcross a c ha2.1.1 hc2.1 ?_
      rw [hcd]
      omega

end GoSort

/-! ### LSD radix invariant and full radix correctness -/

namespace GoSort

theorem emod_mul_decomp {x e b : Int} (hx : 0 ≤ x) (he : 0 < e) (hb : 0 < b) :
    x % (e * b) = e * (x / e % b) + x % e := by
  have h1 : e * (x / e) + x % e = x := Int.ediv_add_emod x e
  have h2 : b * (x / e / b) + x / e % b = x / e := Int.ediv_add_emod (x / e) b
  have m1 : 0 ≤ x % e := Int.emod_nonneg x (by omega)
  have m2 : x % e < e := Int.emod_lt_of_pos x he
  have m3 : 0 ≤ x / e % b := Int.emod_nonneg _ (by omega)
  have m4 : x / e % b < b := Int.emod_lt_of_pos _ hb
  have key : x = e * (x / e % b) + x % e + (e * b) * (x / e / b) := by
    have h3 : x = e * (b * (x / e / b) + x / e % b) + x % e := by
      rw [h2]
      exact h1.symm
    conv_lhs => rw [h3]
    ring
  have h4 : e * (x / e % b) ≤ e * (b - 1) := Int.mul_le_mul_of_nonneg_left (by omega) he.le
  have h5 : e * (b - 1) = e * b - e := by ring
  have h6 := mul_nonneg he.le m3
  conv_lhs => rw [key]
  rw [Int.add_mul_emod_self_left]
  exact Int.emod_eq_of_lt (by omega) (by omega)

theorem segs_pairwise_key {exp base : Int} {l : List Int}
    (he : 0 < exp) (hb : 0 < base) (hx : ∀ x ∈ l, 0 ≤ x)
    (hlow : l.Pairwise fun a c => a % exp ≤ c % exp) :
    (segs exp base [] l base.toNat).Pairwise
      fun a c => a % (exp * base) ≤ c % (exp * base) := by
  have hdig : ∀ x ∈ l, 0 ≤ goDigit exp base x
      ∧ goDigit exp base x < ((base.toNat : Nat) : Int) := by
    intro x hxl
    have h1 := goDigit_bounds (hx x hxl) he hb
    exact ⟨h1.1, by omega⟩
  refine segs_pairwise base.toNat l hdig ?_ ?_
  · intro x y hxl hyl hxy
    have hdx := goDigit_eq_emod (hx x hxl) he hb
    have hdy := goDigit_eq_emod (hx y hyl) he hb
    have ex := emod_mul_decomp (hx x hxl) he hb
    have ey := emod_mul_decomp (hx y hyl) he hb
    rw [hdx, hdy] at hxy
    have m2 : x % exp < exp := Int.emod_lt_of_pos x he
    have m1 : 0 ≤ y % exp := Int.emod_nonneg y (by omega)
    have h4 : exp * ((x / exp % base) + 1) ≤ exp * (y / exp % base) :=
      Int.mul_le_mul_of_nonneg_left (by omega) he.le
    have h5 : exp * ((x / exp % base) + 1) = exp * (x / exp % base) + exp := by ring
    omega
  · intro d
    have hsub : (bucketOf exp base d l).Pairwise fun a c => a % exp ≤ c % exp :=
      List.Pairwise.sublist (List.filter_sublist l) hlow
    refine hsub.imp_of_mem ?_
    intro a c ha hc hac
    rw [bucketOf, List.mem_filter] at ha hc
    have hda := ha.2
    have hdc := hc.2
    simp only [decide_eq_true_eq] at hda hdc
    have ea := emod_mul_decomp (hx a ha.1) he hb
    have ec := emod_mul_decomp (hx c hc.1) he hb
    have hda2 := goDigit_eq_emod (hx a ha.1) he hb
    have hdc2 := goDigit_eq_emod (hx c hc.1) he hb
    have heq : a / exp % base = c / exp % base := by
      rw [← hda2, ← hdc2, hda, hdc]
    rw [heq] at ea
    omega

theorem segs_pairwise_digit {exp base : Int} {l : List Int}
    (he : 0 < exp) (hb : 0 < base) (hx : ∀ x ∈ l, 0 ≤ x) :
    (segs exp base [] l base.toNat).Pairwise
      fun a c => goDigit exp base a ≤ goDigit exp base c := by
  have hdig : ∀ x ∈ l, 0 ≤ goDigit exp base x
      ∧ goDigit exp base x < ((base.toNat : Nat) : Int) := by
    intro x hxl
    have h1 := goDigit_bounds (hx x hxl) he hb
    exact ⟨h1.1, by omega⟩
  refine segs_pairwise base.toNat l hdig ?_ ?_
  · intro x y _ _ hxy
    omega
  · intro d
    refine List.pairwise_of_forall_mem_list ?_
    intro a ha c hc
    rw [bucketOf, List.mem_filter] at ha hc
    have h1 := ha.2
    have h2 := hc.2
    simp only [decide_eq_true_eq] at h1 h2
    omega

theorem foldl_min_spec (l : List Int) : ∀ a : Int,
    (l.foldl (fun m v => if v < m then v else m) a ≤ a)
    ∧ (∀ x ∈ l, l.foldl (fun m v => if v < m then v else m) a ≤ x) := by
  induction l with
  | nil =>
    intro a
    refine ⟨le_rfl, ?_⟩
    intro x hx
    simp at hx
  | cons v t ih =>
    intro a
    simp only [List.foldl_cons]
    have H := ih (if v < a then v else a)
    refine ⟨?_, ?_⟩
    · refine le_trans H.1 ?_
      split <;> omega
    · intro x hx
      rcases List.mem_cons.1 hx with rfl | hx
      · refine le_trans H.1 ?_
        split <;> omega
      · exact H.2 x hx

theorem foldl_max_spec (l : List Int) : ∀ a : Int,
    (a ≤ l.foldl (fun m v => if m < v then v else m) a)
    ∧ (∀ x ∈ l, x ≤ l.foldl (fun m v => if m < v then v else m) a) := by
  induction l with
  | nil =>
    intro a
    refine ⟨le_rfl, ?_⟩
    intro x hx
    simp at hx
  | cons v t ih =>
    intro a
    simp only [List.foldl_cons]
    have H := ih (if a < v then v else a)
    refine ⟨?_, ?_⟩
    · refine le_trans ?_ H.1
      split <;> omega
    · intro x hx
      rcases List.mem_cons.1 hx with rfl | hx
      · refine le_trans ?_ H.1
        split <;> omega
      · exact H.2 x hx

theorem minValOf_le (arr : List Int) : ∀ x ∈ arr, minValOf arr ≤ x :=
  (foldl_min_spec arr (arr.headD 0)).2

theorem maxValOf_ge (arr : List Int) : ∀ x ∈ arr, x ≤ maxValOf arr :=
  (foldl_max_spec arr (arr.headD 0)).2

theorem offsetOf_nonneg (arr : List Int) : 0 ≤ offsetOf arr := by
  unfold offsetOf
  split_ifs with h <;> omega

theorem shiftedArr_eq_map (arr : List Int) :
    shiftedArr arr = arr.map fun v => v + offsetOf arr := by
  unfold shiftedArr offsetOf
  split_ifs with h
  · rfl
  · simp

theorem shiftedArr_nonneg (arr : List Int) : ∀ x ∈ shiftedArr arr, 0 ≤ x := by
  intro x hx
  unfold shiftedArr at hx
  split_ifs at hx with h
  · rcases List.mem_map.1 hx with ⟨v, hv, rfl⟩
    have := minValOf_le arr v hv
    unfold offsetOf
    rw [if_pos h]
    omega
  · have := minValOf_le arr x hx
    omega

theorem radixLoop_sorted {workers maxVal : Int} (hw : 1 ≤ workers) (hmv : 0 ≤ maxVal) :
    ∀ (fuel : Nat) (l : List Int) (exp : Int), 0 < exp →
      maxVal < exp * 256 ^ fuel →
      (∀ x ∈ l, 0 ≤ x ∧ x ≤ maxVal) →
      l.Pairwise (fun a c => a % exp ≤ c % exp) →
      ∃ out, radixLoop workers maxVal fuel l exp = some out
        ∧ out.Perm l ∧ out.Pairwise (· ≤ ·) := by
  intro fuel
  induction fuel with
  | zero =>
    intro l exp hexp hbound hbnd hpw
    simp only [pow_zero, mul_one] at hbound
    simp only [radixLoop]
    rw [if_neg ?hg]
    case hg =>
      rw [Int.tdiv_eq_ediv hmv hexp.le, Int.ediv_eq_zero_of_lt hmv hbound]
      omega
    refine ⟨l, rfl, List.Perm.refl _, ?_⟩
    refine hpw.imp_of_mem ?_
    intro a c ha hc hac
    have h1 := hbnd a ha
    have h2 := hbnd c hc
    rw [Int.emod_eq_of_lt h1.1 (by omega), Int.emod_eq_of_lt h2.1 (by omega)] at hac
    exact hac
  | succ fuel ih =>
    intro l exp hexp hbound hbnd hpw
    simp only [radixLoop]
    by_cases hg : 0 < maxVal.tdiv exp
    · rw [if_pos hg]
      have hx : ∀ x ∈ l, 0 ≤ x := fun x hxl => (hbnd x hxl).1
      rw [parallelCountingSort_eq_segs hw hexp (by norm_num) hx, Option.some_bind]
      have hperm : (segs exp 256 [] l ((256 : Int)).toNat).Perm l := by
        refine segs_perm ((256 : Int)).toNat l ?_
        intro x hxl
        have h1 := goDigit_bounds (hx x hxl) hexp (by norm_num : (0 : Int) < 256)
        exact ⟨h1.1, by omega⟩
      have hpw2 := segs_pairwise_key hexp (by norm_num : (0 : Int) < 256) hx hpw
      have hb2 : maxVal < (exp * 256) * 256 ^ fuel := by
        have h7 : exp * 256 ^ (fuel + 1) = (exp * 256) * 256 ^ fuel := by ring
        omega
      have H := ih (segs exp 256 [] l ((256 : Int)).toNat) (exp * 256) (by positivity) hb2
        (fun x hxs => hbnd x (hperm.mem_iff.1 hxs)) hpw2
      rcases H with ⟨out, heq, hop, hos⟩
      exact ⟨out, heq, hop.trans hperm, hos⟩
    · rw [if_neg hg]
      refine ⟨l, rfl, List.Perm.refl _, ?_⟩
      have hlt : maxVal < exp := by
        by_contra hcon
        push_neg at hcon
        have h8 : 1 ≤ maxVal / exp := by
          rw [Int.le_ediv_iff_mul_le hexp]
          omega
        rw [Int.tdiv_eq_ediv hmv hexp.le] at hg
        omega
      refine hpw.imp_of_mem ?_
      intro a c ha hc hac
      have h1 := hbnd a ha
      have h2 := hbnd c hc
      rw [Int.emod_eq_of_lt h1.1 (by omega), Int.emod_eq_of_lt h2.1 (by omega)] at hac
      exact hac

theorem ParallelRadixSort_correct (arr : List Int) (workers : Int) (hw : 1 ≤ workers) :
    ∃ out, ParallelRadixSort arr workers = some out
      ∧ out.Perm arr ∧ out.Pairwise (· ≤ ·) := by
  by_cases hlen : arr.length ≤ 1
  · refine ⟨arr, ?_, List.Perm.refl _, pairwise_of_short hlen⟩
    simp only [ParallelRadixSort]
    rw [if_pos hlen]
  · have hmap := shiftedArr_eq_map arr
    have hnn : ∀ x ∈ shiftedArr arr, 0 ≤ x := shiftedArr_nonneg arr
    have hlen2 : (shiftedArr arr).length = arr.length := by
      rw [hmap, List.length_map]
    have hmax_ge := maxValOf_ge (shiftedArr arr)
    have hmax_nn : 0 ≤ maxValOf (shiftedArr arr) := by
      rcases hl : shiftedArr arr with _ | ⟨h0, t⟩
      · rw [hl] at hlen2
        simp at hlen2
        omega
      · have h0m : h0 ∈ shiftedArr arr := by
          rw [hl]
          simp
        have h1 := hnn h0 h0m
        have h2 := hmax_ge h0 h0m
        rw [hl] at h2
        omega
    have hpow : maxValOf (shiftedArr arr)
        < (256 : Int) ^ ((maxValOf (shiftedArr arr)).toNat + 1) := by
      have h1 : (maxValOf (shiftedArr arr)).toNat
          < 256 ^ ((maxValOf (shiftedArr arr)).toNat + 1) := by
        calc (maxValOf (shiftedArr arr)).toNat
            < 256 ^ (maxValOf (shiftedArr arr)).toNat := Nat.lt_pow_self (by norm_num) _
          _ ≤ 256 ^ ((maxValOf (shiftedArr arr)).toNat + 1) :=
              Nat.pow_le_pow_right (by norm_num) (by omega)
      calc maxValOf (shiftedArr arr) = ((maxValOf (shiftedArr arr)).toNat : Int) :=
            (Int.toNat_of_nonneg hmax_nn).symm
        _ < ((256 ^ ((maxValOf (shiftedArr arr)).toNat + 1) : Nat) : Int) := by
            exact_mod_cast h1
        _ = (256 : Int) ^ ((maxValOf (shiftedArr arr)).toNat + 1) := by
            push_cast
            ring
    have hlp := radixLoop_sorted hw hmax_nn ((maxValOf (shiftedArr arr)).toNat + 1)
      (shiftedArr arr) 1 (by norm_num) (by rw [one_mul]; exact hpow)
      (fun x hxs => ⟨hnn x hxs, hmax_ge x hxs⟩)
      (by
        refine List.pairwise_of_forall_mem_list ?_
        intro a _ c _
        simp [Int.emod_one])
    rcases hlp with ⟨out, heq, hperm, hsort⟩
    by_cases hoff : 0 < offsetOf arr
    · refine ⟨out.map fun v => v - offsetOf arr, ?_, ?_, ?_⟩
      · simp only [ParallelRadixSort]
        rw [if_neg hlen, heq, Option.some_bind, if_pos hoff]
      · have h3 : (out.map fun v => v - offsetOf arr).Perm
            ((shiftedArr arr).map fun v => v - offsetOf arr) := List.Perm.map _ hperm
        refine h3.trans ?_
        rw [hmap, List.map_map]
        have h4 : ((fun v => v - offsetOf arr) ∘ fun v => v + offsetOf arr) = id := by
          funext v
          simp
        rw [h4, List.map_id]
      · rw [List.pairwise_map]
        refine hsort.imp ?_
        intro a c hac
        omega
    · have hmin : ¬ minValOf arr < 0 := by
        unfold offsetOf at hoff
        split_ifs at hoff with h
        · omega
        · exact h
      have hshift : shiftedArr arr = arr := by
        unfold shiftedArr
        rw [if_neg hmin]
      refine ⟨out, ?_, ?_, hsort⟩
      · simp only [ParallelRadixSort]
        rw [if_neg hlen, heq, Option.some_bind, if_neg hoff]
      · rw [← hshift]
        exact hperm

end GoSort

/-! ### Pass-count characterization for the radix digit loop -/

namespace GoSort

theorem maxValOf_shifted_nonneg (arr : List Int) (h : 1 ≤ arr.length) :
    0 ≤ maxValOf (shiftedArr arr) := by
  have hnn := shiftedArr_nonneg arr
  have hlen2 : (shiftedArr arr).length = arr.length := by
    rw [shiftedArr_eq_map, List.length_map]
  rcases hl : shiftedArr arr with _ | ⟨h0, t⟩
  · rw [hl] at hlen2
    simp at hlen2
    omega
  · have h0m : h0 ∈ shiftedArr arr := by
      rw [hl]
      simp
    have h1 := hnn h0 h0m
    have h2 := maxValOf_ge (shiftedArr arr) h0 h0m
    rw [hl] at h2
    omega

theorem maxVal_lt_pow (mv : Int) (hmv : 0 ≤ mv) : mv < (256 : Int) ^ (mv.toNat + 1) := by
  have h1 : mv.toNat < 256 ^ (mv.toNat + 1) := by
    calc mv.toNat < 256 ^ mv.toNat := Nat.lt_pow_self (by norm_num) _
      _ ≤ 256 ^ (mv.toNat + 1) := Nat.pow_le_pow_right (by norm_num) (by omega)
  calc mv = (mv.toNat : Int) := (Int.toNat_of_nonneg hmv).symm
    _ < ((256 ^ (mv.toNat + 1) : Nat) : Int) := by exact_mod_cast h1
    _ = (256 : Int) ^ (mv.toNat + 1) := by
        push_cast
        ring

theorem radixPassCount_least {maxVal : Int} (hmv : 0 ≤ maxVal) :
    ∀ (fuel : Nat) (exp : Int), 0 < exp → maxVal < exp * 256 ^ fuel →
      maxVal < exp * 256 ^ (radixPassCount maxVal fuel exp)
      ∧ ∀ j < radixPassCount maxVal fuel exp, ¬ maxVal < exp * 256 ^ j := by
  intro fuel
  induction fuel with
  | zero =>
    intro exp hexp hb
    simp only [radixPassCount]
    simp only [pow_zero, mul_one] at hb ⊢
    exact ⟨hb, fun j hj => by omega⟩
  | succ fuel ih =>
    intro exp hexp hb
    simp only [radixPassCount]
    by_cases hg : 0 < maxVal.tdiv exp
    · rw [if_pos hg]
      have hge : exp ≤ maxVal := by
        rw [Int.tdiv_eq_ediv hmv hexp.le] at hg
        by_contra hcon
        push_neg at hcon
        rw [Int.ediv_eq_zero_of_lt hmv hcon] at hg
        omega
      have hb2 : maxVal < (exp * 256) * 256 ^ fuel := by
        have h7 : exp * 256 ^ (fuel + 1) = (exp * 256) * 256 ^ fuel := by ring
        omega
      have H := ih (exp * 256) (by positivity) hb2
      constructor
      · have h8 : exp * 256 ^ (radixPassCount maxVal fuel (exp * 256) + 1)
            = (exp * 256) * 256 ^ (radixPassCount maxVal fuel (exp * 256)) := by ring
        omega
      · intro j hj
        cases j with
        | zero =>
          simp only [pow_zero, mul_one]
          omega
        | succ j =>
          have hj2 : j < radixPassCount maxVal fuel (exp * 256) := by omega
          have h9 := H.2 j hj2
          have h10 : exp * 256 ^ (j + 1) = (exp * 256) * 256 ^ j := by ring
          omega
    · rw [if_neg hg]
      have hlt : maxVal < exp := by
        by_contra hcon
        push_neg at hcon
        have h8 : 1 ≤ maxVal / exp := by
          rw [Int.le_ediv_iff_mul_le hexp]
          omega
        rw [Int.tdiv_eq_ediv hmv hexp.le] at hg
        omega
      simp only [pow_zero, mul_one]
      exact ⟨hlt, fun j hj => by omega⟩

theorem radixLoop_eq_applyPasses {workers maxVal : Int} (hmv : 0 ≤ maxVal) :
    ∀ (fuel : Nat) (arr : List Int) (exp : Int), 0 < exp → maxVal < exp * 256 ^ fuel →
      radixLoop workers maxVal fuel arr exp
        = applyPasses workers (radixPassCount maxVal fuel exp) arr exp := by
  intro fuel
  induction fuel with
  | zero =>
    intro arr exp hexp hb
    simp only [pow_zero, mul_one] at hb
    simp only [radixLoop, radixPassCount, applyPasses]
    rw [if_neg ?hg]
    case hg =>
      rw [Int.tdiv_eq_ediv hmv hexp.le, Int.ediv_eq_zero_of_lt hmv hb]
      omega
  | succ fuel ih =>
    intro arr exp hexp hb
    simp only [radixLoop, radixPassCount]
    by_cases hg : 0 < maxVal.tdiv exp
    · rw [if_pos hg, if_pos hg]
      simp only [applyPasses]
      have hb2 : maxVal < (exp * 256) * 256 ^ fuel := by
        have h7 : exp * 256 ^ (fuel + 1) = (exp * 256) * 256 ^ fuel := by ring
        omega
      cases hpc : parallelCountingSort arr exp 256 workers with
      | none => rfl
      | some a2 =>
        simp only [Option.some_bind]
        exact ih a2 (exp * 256) (by positivity) hb2
    · rw [if_neg hg, if_neg hg]
      simp only [applyPasses]

end GoSort

/-! ### The claims -/

namespace GoSort

/-- Claim C1: for every integer array and every worker count `w ≥ 1`, each sort
entry point — both `ParallelQuickSort` implementations and `ParallelRadixSort` —
yields a permutation of the original multiset in non-decreasing order. -/
theorem claim1_all_sorts_correct (arr : List Int) (w : Int) (hw : 1 ≤ w) :
    ((ParallelQuickSortV1 arr w).Perm arr ∧ (ParallelQuickSortV1 arr w).Pairwise (· ≤ ·))
    ∧ ((ParallelQuickSortV2 arr w).Perm arr ∧ (ParallelQuickSortV2 arr w).Pairwise (· ≤ ·))
    ∧ ∃ out, ParallelRadixSort arr w = some out ∧ out.Perm arr ∧ out.Pairwise (· ≤ ·) :=
  ⟨ParallelQuickSortV1_correct arr w, ParallelQuickSortV2_correct arr w,
    ParallelRadixSort_correct arr w hw⟩

/-- Witness for C1 at a concrete input. -/
theorem claim1_witness :
    (1 : Int) ≤ 4 ∧ (ParallelQuickSortV1 [5, 3, 3, 1, 4, 4, 4, 2] 4).Perm
      [5, 3, 3, 1, 4, 4, 4, 2] :=
  ⟨by decide, (claim1_all_sorts_correct [5, 3, 3, 1, 4, 4, 4, 2] 4 (by decide)).1.1⟩

set_option maxRecDepth 100000 in
/-- Counterexample to C2: for the one-element array `[0]` (digit 0 at `exp = 1`),
the cumulative array holds `cumulative[0] = 1`, but the number of elements with
digit strictly less than 0 is 0 — the code computes an inclusive, not an
exclusive, prefix sum. -/
theorem claim2_counterexample :
    (globalCumulative [0] 1 256 1).map (fun cum => cum.getD 0 0) = some 1
    ∧ lowCount 1 256 0 [0] = 0 := by
  decide

/-- Claim C2 (amended): after the merge and the in-place conversion loop
`globalCount[i] += globalCount[i-1]`, the cumulative array is the INCLUSIVE
prefix sum of the digit histogram: for every digit `d` in `[0, 256)`,
`cumulative[d]` equals the number of array elements whose digit at position
`exp` is less than OR EQUAL to `d`. -/
theorem claim2_cumulative_inclusive (arr : List Int) (exp workers : Int)
    (hw : 1 ≤ workers) (he : 0 < exp) (hx : ∀ x ∈ arr, 0 ≤ x) :
    ∃ cum, globalCumulative arr exp 256 workers = some cum
      ∧ ∀ d : Nat, d < 256 → cum.getD d 0 = lowCount exp 256 (d + 1) arr := by
  refine ⟨cumExpected exp 256 arr arr ((256 : Int)).toNat,
    globalCumulative_eq hw he (by norm_num) hx, ?_⟩
  intro d hd
  rw [cumExpected_getD (by omega : d < ((256 : Int)).toNat), lowCount_succ]

/-- Witness for the amended C2 at a concrete input. -/
theorem claim2_witness :
    (1 : Int) ≤ 1 ∧ (0 : Int) < 1 ∧
    ∃ cum, globalCumulative [3, 1] 1 256 1 = some cum
      ∧ ∀ d : Nat, d < 256 → cum.getD d 0 = lowCount 1 256 (d + 1) [3, 1] :=
  ⟨by decide, by decide,
    claim2_cumulative_inclusive [3, 1] 1 1 (by decide) (by decide) (by decide)⟩

/-- Claim C3: each call `parallelCountingSort(arr, exp, base, workers)` (with
the pass parameters actually used, `base = 256`) is a stable sort of `arr` by
the key `(arr[i]/exp) % base`: it succeeds, returns a permutation of the input
ordered by that digit, and elements with equal digit retain their
input-relative order (the filter by any fixed digit value is unchanged). -/
theorem claim3_counting_sort_stable (arr : List Int) (exp workers : Int)
    (hw : 1 ≤ workers) (he : 0 < exp) (hx : ∀ x ∈ arr, 0 ≤ x) :
    ∃ out, parallelCountingSort arr exp 256 workers = some out
      ∧ out.Perm arr
      ∧ out.Pairwise (fun a c => goDigit exp 256 a ≤ goDigit exp 256 c)
      ∧ ∀ d : Int, out.filter (fun x => decide (goDigit exp 256 x = d))
          = arr.filter fun x => decide (goDigit exp 256 x = d) := by
  have hb : (0 : Int) < 256 := by norm_num
  have hdig : ∀ x ∈ arr, 0 ≤ goDigit exp 256 x
      ∧ goDigit exp 256 x < (((256 : Int)).toNat : Int) := by
    intro x hxa
    have h1 := goDigit_bounds (hx x hxa) he hb
    exact ⟨h1.1, by omega⟩
  exact ⟨segs exp 256 [] arr ((256 : Int)).toNat,
    parallelCountingSort_eq_segs hw he hb hx, segs_perm _ arr hdig,
    segs_pairwise_digit he hb hx, fun d => segs_filter _ arr hdig⟩

/-- Witness for C3 at a concrete input (two passes' worth of digit structure:
at `exp = 1` the digits of `[513, 258, 1, 0]` are `[1, 2, 1, 0]`). -/
theorem claim3_witness :
    (1 : Int) ≤ 2 ∧ (0 : Int) < 1 ∧
    ∃ out, parallelCountingSort [513, 258, 1, 0] 1 256 2 = some out
      ∧ out.Perm [513, 258, 1, 0]
      ∧ out.Pairwise (fun a c => goDigit 1 256 a ≤ goDigit 1 256 c)
      ∧ ∀ d : Int, out.filter (fun x => decide (goDigit 1 256 x = d))
          = [513, 258, 1, 0].filter fun x => decide (goDigit 1 256 x = d) :=
  ⟨by decide, by decide,
    claim3_counting_sort_stable [513, 258, 1, 0] 1 2 (by decide) (by decide) (by decide)⟩

/-- Counterexample to C4.  (a) `partitionMedian` on `[2, 1, 2]` returns
`p = 2` with the pivot value 2 also sitting at index 1 inside the LEFT zone —
the left zone is `≤ pivot`, not strictly `< pivot`, and there is no equal-pivot
middle zone (it is a 2-way Lomuto partition, not a Dutch-flag 3-way split).
(b) `partition3Way` on the 2-element range `[5, 3]` uses pivot 3 after the
preparatory swaps, whereas the median of the first/middle/last elements of the
original range is `median3 5 5 3 = 5`: for 2-element ranges the chosen pivot is
not the median-of-three of the range. -/
theorem claim4_counterexample :
    ((partitionMedian (ofList [2, 1, 2]) 0 2).2 = 2
      ∧ (partitionMedian (ofList [2, 1, 2]) 0 2).1 1 = 2
      ∧ (partitionMedian (ofList [2, 1, 2]) 0 2).1 2 = 2)
    ∧ ((partition3Way (ofList [5, 3]) 0 1).1 0 = 3
      ∧ (partition3Way (ofList [5, 3]) 0 1).2.1 = 0
      ∧ (partition3Way (ofList [5, 3]) 0 1).2.2 = 0
      ∧ median3 (ofList [5, 3] 0) (ofList [5, 3] (0 + ((1 : Int) - 0).tdiv 2))
          (ofList [5, 3] 1) = 5) := by
  decide

/-- Claim C4 (amended): of the two partition routines, only `partition3Way`
(the second quicksort engine) is a 3-way Dutch-flag split with strict outer
zones; `partitionMedian` (the first engine) is a 2-way Lomuto partition whose
left zone is `≤ pivot`.  In both, the pivot equals the median of the first,
middle and last elements only for ranges of at least 3 elements
(`lo + 1 < hi`); both permute exactly `arr[lo..hi]` and leave the outside
untouched. -/
theorem claim4_partition_spec (f : Int → Int) (lo hi : Int) (h : lo < hi) :
    (∀ g p, partitionMedian f lo hi = (g, p) →
      ∃ pv : Int,
        (lo + 1 < hi → pv = median3 (f lo) (f (lo + (hi - lo).tdiv 2)) (f hi))
        ∧ (lo ≤ p ∧ p ≤ hi)
        ∧ g p = pv
        ∧ (∀ k, lo ≤ k → k < p → g k ≤ pv)
        ∧ (∀ k, p < k → k ≤ hi → pv < g k)
        ∧ (∀ k, k < lo ∨ hi < k → g k = f k)
        ∧ (readRange g lo hi).Perm (readRange f lo hi))
    ∧ (∀ g lt gt, partition3Way f lo hi = (g, lt, gt) →
      ∃ pv : Int,
        (lo + 1 < hi → pv = median3 (f lo) (f (lo + (hi - lo).tdiv 2)) (f hi))
        ∧ (lo ≤ lt ∧ lt ≤ gt ∧ gt ≤ hi)
        ∧ (∀ k, lo ≤ k → k < lt → g k < pv)
        ∧ (∀ k, lt ≤ k → k ≤ gt → g k = pv)
        ∧ (∀ k, gt < k → k ≤ hi → pv < g k)
        ∧ (∀ k, k < lo ∨ hi < k → g k = f k)
        ∧ (readRange g lo hi).Perm (readRange f lo hi)) :=
  ⟨fun g p heq => partitionMedian_spec f h g p heq,
   fun g lt gt heq => partition3Way_spec f h g lt gt heq⟩

/-- Witness for the amended C4 at a concrete input. -/
theorem claim4_witness :
    (0 : Int) < 2 ∧ (readRange (partitionMedian (ofList [3, 1, 2]) 0 2).1 0 2).Perm
      (readRange (ofList [3, 1, 2]) 0 2) := by
  refine ⟨by decide, ?_⟩
  obtain ⟨pv, -, -, -, -, -, -, hperm⟩ :=
    (claim4_partition_spec (ofList [3, 1, 2]) 0 2 (by decide)).1
      (partitionMedian (ofList [3, 1, 2]) 0 2).1
      (partitionMedian (ofList [3, 1, 2]) 0 2).2 rfl
  exact hperm

set_option maxRecDepth 100000 in
/-- Claim C5: `ParallelRadixSort` handles negative values by offsetting: when
the minimum is negative it adds `offset = -minimum` to every element, making
all values non-negative; when the minimum is non-negative it leaves the array
as is; the whole sort then returns the original multiset sorted (so the offset
is restored after the passes); and on the concrete scenario `[-5, 10, -3, 0, 7]`
with `workers = 2` the result is `[-5, -3, 0, 7, 10]`. -/
theorem claim5_negative_offset (arr : List Int) (w : Int) (hw : 1 ≤ w) :
    (minValOf arr < 0 →
      offsetOf arr = -(minValOf arr)
      ∧ shiftedArr arr = arr.map (fun v => v + (-(minValOf arr)))
      ∧ ∀ x ∈ shiftedArr arr, 0 ≤ x)
    ∧ (0 ≤ minValOf arr → offsetOf arr = 0 ∧ shiftedArr arr = arr)
    ∧ (∃ out, ParallelRadixSort arr w = some out ∧ out.Perm arr ∧ out.Pairwise (· ≤ ·))
    ∧ ParallelRadixSort [-5, 10, -3, 0, 7] 2 = some [-5, -3, 0, 7, 10] := by
  refine ⟨?_, ?_, ParallelRadixSort_correct arr w hw, by decide⟩
  · intro hmin
    refine ⟨?_, ?_, shiftedArr_nonneg arr⟩
    · unfold offsetOf
      rw [if_pos hmin]
    · unfold shiftedArr
      rw [if_pos hmin]
      unfold offsetOf
      rw [if_pos hmin]
  · intro hmin
    constructor
    · unfold offsetOf
      rw [if_neg (by omega)]
    · unfold shiftedArr
      rw [if_neg (by omega)]

/-- Witness for C5 at the concrete scenario input. -/
theorem claim5_witness :
    (1 : Int) ≤ 2 ∧ ParallelRadixSort [-5, 10, -3, 0, 7] 2 = some [-5, -3, 0, 7, 10] :=
  ⟨by decide, (claim5_negative_offset [-5, 10, -3, 0, 7] 2 (by decide)).2.2.2⟩

/-- Counterexample to C6: the guard in both quicksort engines is
`hi - lo < 2048`, so a range of EXACTLY 2048 elements (`lo = 0`, `hi = 2047`)
is still handed to the sequential sort, although it is not shorter than the
threshold of 2048 elements. -/
theorem claim6_counterexample :
    smallJob 0 2047 = true ∧ smallPartition 0 2047 = true
    ∧ ¬ ((2047 : Int) - 0 + 1 < 2048) := by
  decide

/-- Claim C6 (amended): in both quicksort implementations, a job range
`[lo, hi]` with `lo < hi` is handed directly to the sequential comparison sort
exactly when it has AT MOST 2048 elements (`hi - lo + 1 ≤ 2048`, the guard
`hi - lo < 2048`); ranges of 2049 elements or more are instead partitioned and
their sub-ranges submitted. -/
theorem claim6_threshold_guard (lo hi : Int) (h : lo < hi) :
    (smallJob lo hi = true ↔ hi - lo + 1 ≤ 2048)
    ∧ (smallPartition lo hi = true ↔ hi - lo + 1 ≤ 2048)
    ∧ ∀ (fuel : Nat) (f : Int → Int),
        (smallJob lo hi = true →
          quickSortJobF (fuel + 1) f lo hi = seqSortRange f lo hi)
        ∧ (smallJob lo hi = false →
          quickSortJobF (fuel + 1) f lo hi =
            (let r := partitionMedian f lo hi
             let f1 := if r.2 - 1 ≤ lo then r.1 else quickSortJobF fuel r.1 lo (r.2 - 1)
             if hi ≤ r.2 + 1 then f1 else quickSortJobF fuel f1 (r.2 + 1) hi))
        ∧ (smallPartition lo hi = true →
          quickSortPartitionF (fuel + 1) f lo hi = seqSortRange f lo hi)
        ∧ (smallPartition lo hi = false →
          quickSortPartitionF (fuel + 1) f lo hi =
            (let r := partition3Way f lo hi
             let f1 := if r.2.1 - 1 ≤ lo then r.1
               else quickSortPartitionF fuel r.1 lo (r.2.1 - 1)
             if hi ≤ r.2.2 + 1 then f1 else quickSortPartitionF fuel f1 (r.2.2 + 1) hi)) := by
  refine ⟨?_, ?_, ?_⟩
  · simp only [smallJob, decide_eq_true_eq]
    omega
  · simp only [smallPartition, sortThreshold, decide_eq_true_eq]
    omega
  · intro fuel f
    refine ⟨?_, ?_, ?_, ?_⟩
    · intro hs
      simp only [quickSortJobF]
      rw [if_neg (by omega), if_pos hs]
    · intro hs
      simp only [quickSortJobF]
      rw [if_neg (by omega), if_neg (by simp [hs])]
    · intro hs
      simp only [quickSortPartitionF]
      rw [if_neg (by omega), if_pos hs]
    · intro hs
      simp only [quickSortPartitionF]
      rw [if_neg (by omega), if_neg (by simp [hs])]

/-- Witness for the amended C6 at the threshold boundary. -/
theorem claim6_witness :
    (0 : Int) < 2047 ∧ (smallJob 0 2047 = true ↔ (2047 : Int) - 0 + 1 ≤ 2048) :=
  ⟨by decide, (claim6_threshold_guard 0 2047 (by decide)).1⟩

/-- Claim C7: the digit-pass loop (starting at `exp = 1`, multiplying by 256
each pass, running while `maxVal / exp > 0`) terminates for every input,
executing exactly the least `k` passes such that the offset-corrected maximum
is below `256 ^ k`. -/
theorem claim7_pass_count (arr : List Int) (workers : Int)
    (hw : 1 ≤ workers) (h2 : 2 ≤ arr.length) :
    ∃ (k : Nat) (out : List Int),
      radixLoop workers (maxValOf (shiftedArr arr)) ((maxValOf (shiftedArr arr)).toNat + 1)
          (shiftedArr arr) 1 = some out
      ∧ radixLoop workers (maxValOf (shiftedArr arr)) ((maxValOf (shiftedArr arr)).toNat + 1)
          (shiftedArr arr) 1 = applyPasses workers k (shiftedArr arr) 1
      ∧ maxValOf (shiftedArr arr) < 256 ^ k
      ∧ ∀ j, j < k → ¬ maxValOf (shiftedArr arr) < 256 ^ j := by
  have hmv := maxValOf_shifted_nonneg arr (by omega)
  have hpow := maxVal_lt_pow _ hmv
  have hb1 : maxValOf (shiftedArr arr)
      < 1 * 256 ^ ((maxValOf (shiftedArr arr)).toNat + 1) := by
    rw [one_mul]
    exact hpow
  have hloop := radixLoop_sorted hw hmv ((maxValOf (shiftedArr arr)).toNat + 1)
    (shiftedArr arr) 1 (by norm_num) hb1
    (fun x hxs => ⟨shiftedArr_nonneg arr x hxs, maxValOf_ge _ x hxs⟩)
    (by
      refine List.pairwise_of_forall_mem_list ?_
      intro a _ c _
      simp [Int.emod_one])
  rcases hloop with ⟨out, heq, -, -⟩
  have hl := radixPassCount_least hmv ((maxValOf (shiftedArr arr)).toNat + 1) 1
    (by norm_num) hb1
  refine ⟨radixPassCount (maxValOf (shiftedArr arr)) ((maxValOf (shiftedArr arr)).toNat + 1) 1,
    out, heq, radixLoop_eq_applyPasses hmv _ _ 1 (by norm_num) hb1, ?_, ?_⟩
  · have h3 := hl.1
    rw [one_mul] at h3
    exact h3
  · intro j hj
    have h3 := hl.2 j hj
    rw [one_mul] at h3
    exact h3

/-- Witness for C7 at a concrete input. -/
theorem claim7_witness :
    (1 : Int) ≤ 1 ∧ 2 ≤ ([0, 1] : List Int).length ∧
    ∃ (k : Nat) (out : List Int),
      radixLoop 1 (maxValOf (shiftedArr [0, 1])) ((maxValOf (shiftedArr [0, 1])).toNat + 1)
          (shiftedArr [0, 1]) 1 = some out
      ∧ radixLoop 1 (maxValOf (shiftedArr [0, 1])) ((maxValOf (shiftedArr [0, 1])).toNat + 1)
          (shiftedArr [0, 1]) 1 = applyPasses 1 k (shiftedArr [0, 1]) 1
      ∧ maxValOf (shiftedArr [0, 1]) < 256 ^ k
      ∧ ∀ j, j < k → ¬ maxValOf (shiftedArr [0, 1]) < 256 ^ j :=
  ⟨by decide, by decide, claim7_pass_count [0, 1] 1 (by decide) (by decide)⟩

set_option maxRecDepth 100000 in
/-- Counterexample to C8: with the invalid worker count 0, `ParallelRadixSort`
on `[0, 0]` does NOT reject the call — it silently returns successfully (the
maximum is 0, so no pass ever runs and the division by `workers` is never
reached). -/
theorem claim8_counterexample : ParallelRadixSort [0, 0] 0 = some [0, 0] := by
  decide

/-- Claim C8 (amended): there is no explicit validation of the worker count.
For `workers ≤ 0`, a radix pass that actually executes fails (in Go:
division-by-zero / negative-`make` panic, modelled as `none`) — so
`ParallelRadixSort` panics mid-sort whenever at least one pass runs — but when
no pass runs the call silently succeeds (see the counterexample), and the
quicksort entry points in Go block forever rather than rejecting (not statable
in this embedding, which models only completed schedules). -/
theorem claim8_no_validation (w : Int) (hw : w ≤ 0) :
    (∀ (arr : List Int) (exp base : Int), parallelCountingSort arr exp base w = none)
    ∧ (∀ arr : List Int, 2 ≤ arr.length → 0 < maxValOf (shiftedArr arr) →
        ParallelRadixSort arr w = none) := by
  have hpcs : ∀ (arr : List Int) (exp base : Int),
      parallelCountingSort arr exp base w = none := by
    intro arr exp base
    unfold parallelCountingSort globalCumulative mergedHistogram
    rw [if_pos hw]
    rfl
  refine ⟨hpcs, ?_⟩
  intro arr hlen hmax
  simp only [ParallelRadixSort]
  rw [if_neg (by omega)]
  simp only [radixLoop]
  rw [if_pos ?hg]
  case hg =>
    rw [Int.tdiv_one]
    exact hmax
  rw [hpcs]
  rfl

/-- Witness for the amended C8 at a concrete input. -/
theorem claim8_witness :
    (0 : Int) ≤ 0 ∧ parallelCountingSort [1] 1 256 0 = none :=
  ⟨by decide, (claim8_no_validation 0 (by decide)).1 [1] 1 256⟩

/-- Claim C9: `submitJob`'s queue-full fallback runs the sub-range sort
synchronously inline on the caller (for `lo < hi` it equals the inline job
body; for `lo ≥ hi` it is a no-op by the guard), and the all-fallback run —
every submission taking the fallback branch, as forced by `workers = 1` with a
tiny queue — still sorts the whole array correctly in both engines. -/
theorem claim9_fallback_inline (fuel : Nat) (f : Int → Int) (lo hi : Int) (h : lo < hi) :
    submitJobV1 fuel f lo hi = quickSortJobF fuel f lo hi
    ∧ submitJobV2 fuel f lo hi = quickSortPartitionF fuel f lo hi
    ∧ ∀ arr : List Int,
        ((ParallelQuickSortV1 arr 1).Perm arr ∧ (ParallelQuickSortV1 arr 1).Pairwise (· ≤ ·))
        ∧ ((ParallelQuickSortV2 arr 1).Perm arr
          ∧ (ParallelQuickSortV2 arr 1).Pairwise (· ≤ ·)) := by
  refine ⟨?_, ?_,
    fun arr => ⟨ParallelQuickSortV1_correct arr 1, ParallelQuickSortV2_correct arr 1⟩⟩
  · unfold submitJobV1
    rw [if_neg (by omega)]
  · unfold submitJobV2
    rw [if_neg (by omega)]

/-- Witness for C9 at a concrete input. -/
theorem claim9_witness :
    (0 : Int) < 1 ∧ submitJobV1 2 (ofList [2, 1]) 0 1 = quickSortJobF 2 (ofList [2, 1]) 0 1 :=
  ⟨by decide, (claim9_fallback_inline 2 (ofList [2, 1]) 0 1 (by decide)).1⟩

/-- Claim C10: after the offset step every element is non-negative, so every
digit `(arr[i]/exp) % 256` computed in a pass lies in `[0, 256)`; consequently
all count/cumulative/output indexing is in bounds — the embedding's
out-of-range branches (modelled as `none`) are unreachable, and both a single
pass on the shifted array and the whole radix sort return `some`. -/
theorem claim10_digit_safety (arr : List Int) (w exp : Int) (hw : 1 ≤ w) (he : 0 < exp) :
    (∀ x ∈ shiftedArr arr, 0 ≤ x)
    ∧ (∀ x ∈ shiftedArr arr, 0 ≤ goDigit exp 256 x ∧ goDigit exp 256 x < 256)
    ∧ (parallelCountingSort (shiftedArr arr) exp 256 w).isSome = true
    ∧ (ParallelRadixSort arr w).isSome = true := by
  have hnn := shiftedArr_nonneg arr
  refine ⟨hnn, fun x hx => goDigit_bounds (hnn x hx) he (by norm_num), ?_, ?_⟩
  · rw [parallelCountingSort_eq_segs hw he (by norm_num) hnn]
    rfl
  · rcases ParallelRadixSort_correct arr w hw with ⟨out, heq, -, -⟩
    rw [heq]
    rfl

/-- Witness for C10 at a concrete input. -/
theorem claim10_witness :
    (1 : Int) ≤ 1 ∧ (0 : Int) < 1 ∧ ∀ x ∈ shiftedArr [-3, 5], 0 ≤ x :=
  ⟨by decide, by decide, (claim10_digit_safety [-3, 5] 1 1 (by decide) (by decide)).1⟩

end GoSort
